import Mathlib

/-!
Verification development for the PArea/Area taxonomy construction
(`core/abn/pareataxonomy/AreaTaxonomy.py`, `core/abn/pareataxonomy/PAreaTaxonomy.py`,
`core/abn/pareataxonomy/Area.py`, `core/abn/pareataxonomy/PArea.py`,
`core/hierarchy/visitor/HierarchyDepthVisitor.py`).

Concepts (`core.ontology.Concept`, opaque identities) are embedded as natural
numbers; relationship-type labels as natural numbers; a signature
(`frozenset` of labels) as a `Finset ℕ`.  The signature function
`get_concept_rels` is embedded as a total function `ℕ → Finset ℕ`
(`concept_rels_cache` in the source caches exactly its values, so the cache is
the function itself; totality embeds the spec assumption that the signature
function covers every node).
-/

/-- Modelled from the spec: `core/hierarchy/Hierarchy.py` is imported by the
taxonomy code but is not under `src/`; this structure follows the Hierarchy
contract of spec section 4.1.  `edges` is the child→parent edge list in
`add_edge` insertion order; `topo` is the list returned by
`get_topological_ordering` (any order in which every parent precedes its
children).  For hierarchies built during taxonomy construction `topo` is
left empty, since the code never asks them for a topological ordering. -/
structure Hierarchy (α : Type) where
  root : α
  edges : List (α × α)
  topo : List α
deriving DecidableEq

namespace Hierarchy

variable {α : Type} [DecidableEq α]

/-- Embeds `get_parents c`: the parent ends of all child→parent edges out of `c`. -/
def parents (H : Hierarchy α) (c : α) : List α :=
  (H.edges.filter fun e => decide (e.1 = c)).map Prod.snd

/-- Embeds `get_children p`: the child ends of all child→parent edges into `p`. -/
def children (H : Hierarchy α) (p : α) : List α :=
  (H.edges.filter fun e => decide (e.2 = p)).map Prod.fst

/-- Embeds `get_nodes`: the root together with every edge endpoint (as a set,
so deduplicated). -/
def nodesList (H : Hierarchy α) : List α :=
  (H.root :: H.edges.foldr (fun e acc => e.1 :: e.2 :: acc) []).dedup

def nodesFinset (H : Hierarchy α) : Finset α :=
  H.nodesList.toFinset

/-- Embeds `get_leaves`: nodes with no children. -/
def leaves (H : Hierarchy α) : List α :=
  H.nodesList.filter fun n => decide (H.children n = [])

theorem mem_parents_iff (H : Hierarchy α) (c p : α) :
    p ∈ H.parents c ↔ (c, p) ∈ H.edges := by
  simp only [parents, List.mem_map, List.mem_filter, decide_eq_true_eq]
  constructor
  · rintro ⟨e, ⟨he, h1⟩, h2⟩
    cases e
    simp_all
  · intro h
    exact ⟨(c, p), ⟨h, rfl⟩, rfl⟩

theorem mem_children_iff (H : Hierarchy α) (c p : α) :
    c ∈ H.children p ↔ (c, p) ∈ H.edges := by
  simp only [children, List.mem_map, List.mem_filter, decide_eq_true_eq]
  constructor
  · rintro ⟨e, ⟨he, h1⟩, h2⟩
    cases e
    simp_all
  · intro h
    exact ⟨(c, p), ⟨h, rfl⟩, rfl⟩

theorem mem_children_iff_mem_parents (H : Hierarchy α) (c p : α) :
    c ∈ H.children p ↔ p ∈ H.parents c := by
  rw [mem_children_iff, mem_parents_iff]

theorem mem_foldr_endpoints {l : List (α × α)} {e : α × α} (he : e ∈ l) :
    e.1 ∈ l.foldr (fun f acc => f.1 :: f.2 :: acc) [] ∧
      e.2 ∈ l.foldr (fun f acc => f.1 :: f.2 :: acc) [] := by
  induction l with
  | nil => cases he
  | cons f fs ih =>
    rcases List.mem_cons.mp he with rfl | he
    · simp
    · have := ih he
      simp only [List.foldr_cons, List.mem_cons]
      exact ⟨Or.inr (Or.inr this.1), Or.inr (Or.inr this.2)⟩

theorem endpoint_mem_exists_edge {l : List (α × α)} {c : α}
    (h : c ∈ l.foldr (fun f acc => f.1 :: f.2 :: acc) []) :
    ∃ e ∈ l, c = e.1 ∨ c = e.2 := by
  induction l with
  | nil => cases h
  | cons f fs ih =>
    simp only [List.foldr_cons, List.mem_cons] at h
    rcases h with rfl | rfl | h
    · exact ⟨f, List.mem_cons_self _ _, Or.inl rfl⟩
    · exact ⟨f, List.mem_cons_self _ _, Or.inr rfl⟩
    · obtain ⟨e, he, hc⟩ := ih h
      exact ⟨e, List.mem_cons_of_mem _ he, hc⟩

theorem edge_fst_mem_nodesList (H : Hierarchy α) {e : α × α} (he : e ∈ H.edges) :
    e.1 ∈ H.nodesList := by
  rw [nodesList, List.mem_dedup]
  exact List.mem_cons_of_mem _ (mem_foldr_endpoints he).1

theorem edge_snd_mem_nodesList (H : Hierarchy α) {e : α × α} (he : e ∈ H.edges) :
    e.2 ∈ H.nodesList := by
  rw [nodesList, List.mem_dedup]
  exact List.mem_cons_of_mem _ (mem_foldr_endpoints he).2

theorem root_mem_nodesList (H : Hierarchy α) : H.root ∈ H.nodesList := by
  rw [nodesList, List.mem_dedup]
  exact List.mem_cons_self _ _

theorem mem_nodesList_of_parent {H : Hierarchy α} {c p : α} (h : p ∈ H.parents c) :
    p ∈ H.nodesList := by
  rw [mem_parents_iff] at h
  exact H.edge_snd_mem_nodesList h

theorem mem_nodesList_of_children_ne_nil {H : Hierarchy α} {p : α}
    (h : H.children p ≠ []) : p ∈ H.nodesList := by
  rcases List.exists_mem_of_ne_nil _ h with ⟨c, hc⟩
  rw [mem_children_iff] at hc
  exact H.edge_snd_mem_nodesList hc

theorem children_length_le_edges (H : Hierarchy α) (p : α) :
    (H.children p).length ≤ H.edges.length := by
  rw [children, List.length_map]
  exact List.length_filter_le _ _

/-- Well-formedness of an input hierarchy, following the contract of spec
section 4.1: the topological ordering enumerates exactly the node set without
repetition, every parent strictly precedes each of its children in it, and the
designated global root has no parents. -/
def WF (H : Hierarchy ℕ) : Prop :=
  H.topo.Nodup ∧
  (∀ n ∈ H.topo, n ∈ H.nodesList) ∧
  (∀ n ∈ H.nodesList, n ∈ H.topo) ∧
  (∀ c ∈ H.topo, ∀ p ∈ H.parents c, H.topo.indexOf p < H.topo.indexOf c) ∧
  H.parents H.root = []

instance (H : Hierarchy ℕ) : Decidable H.WF := by
  unfold WF
  infer_instance

end Hierarchy

/-- Embeds `PArea` (`core/abn/pareataxonomy/PArea.py`): an induced concept
sub-hierarchy together with the region's relationship signature. -/
structure PArea where
  concept_hierarchy : Hierarchy ℕ
  relationships : Finset ℕ
deriving DecidableEq

namespace PArea

/-- Embeds `PArea.get_root`. -/
def get_root (p : PArea) : ℕ := p.concept_hierarchy.root

/-- Embeds `PArea.get_concepts` (the node set of the region's sub-hierarchy). -/
def get_conceptsF (p : PArea) : Finset ℕ := p.concept_hierarchy.nodesFinset

/-- Embeds `PArea.get_relationships`. -/
def get_relationships (p : PArea) : Finset ℕ := p.relationships

end PArea

/-- Embeds `Area` (`core/abn/pareataxonomy/Area.py`): a set of PAreas sharing one
signature.  The Python object holds a set; the embedding keeps the
construction-order list (all uses are order-insensitive, and the set view is
`get_pareas`). -/
structure Area where
  pareasL : List PArea
  relationships : Finset ℕ
deriving DecidableEq

namespace Area

/-- Embeds `Area.get_pareas`, as the set it is in Python. -/
def get_pareas (a : Area) : Finset PArea := a.pareasL.toFinset

/-- The `_concepts` set built in `Area.__init__` — the union of the member
PAreas' concept sets — enumerated as a deduplicated list. -/
def get_conceptsL (a : Area) : List ℕ :=
  (a.pareasL.flatMap fun p => p.concept_hierarchy.nodesList).dedup

/-- Embeds `Area.get_concepts`: the `_concepts` set. -/
def get_concepts (a : Area) : Finset ℕ := a.get_conceptsL.toFinset

theorem mem_get_concepts {a : Area} {c : ℕ} :
    c ∈ a.get_concepts ↔ ∃ p ∈ a.pareasL, c ∈ p.get_conceptsF := by
  simp [get_concepts, get_conceptsL, List.mem_toFinset, List.mem_dedup,
    List.mem_flatMap, PArea.get_conceptsF, Hierarchy.nodesFinset]

end Area

/-- Outcome of a Python call, distinguishing a returned value from the
exceptions relevant to the facade queries: `stopIteration` is what a bare
`next(...)` raises on an exhausted generator, `notFoundError` is the
`NotFoundError` the spec postulates (no such class exists in the source). -/
inductive PyOutcome (α : Type) where
  | ok : α → PyOutcome α
  | stopIteration : PyOutcome α
  | notFoundError : PyOutcome α
deriving DecidableEq

/-! ## The partial-area root detection (`create_area_taxonomy`, Step 1) -/

/-- Step 1 of `create_area_taxonomy` (AreaTaxonomy.py lines 55-60): a concept
is a partial-area root iff it has no parents or no parent has the same cached
relationship signature. -/
def isPAreaRoot (H : Hierarchy ℕ) (sig : ℕ → Finset ℕ) (c : ℕ) : Prop :=
  H.parents c = [] ∨ ¬ ∃ p ∈ H.parents c, sig p = sig c

instance (H : Hierarchy ℕ) (sig : ℕ → Finset ℕ) (c : ℕ) :
    Decidable (isPAreaRoot H sig c) := by
  unfold isPAreaRoot
  infer_instance

/-- The set `parea_roots`, as the sublist of `get_nodes` passing the root
test. -/
def pareaRootsList (H : Hierarchy ℕ) (sig : ℕ → Finset ℕ) : List ℕ :=
  H.nodesList.filter fun c => decide (isPAreaRoot H sig c)

theorem mem_pareaRootsList {H : Hierarchy ℕ} {sig : ℕ → Finset ℕ} {c : ℕ} :
    c ∈ pareaRootsList H sig ↔ c ∈ H.nodesList ∧ isPAreaRoot H sig c := by
  simp [pareaRootsList, List.mem_filter]

/-! ## The assignment sweep (`create_area_taxonomy`, lines 66-96) -/

/-- The guard of the inner `for child in children` loop (AreaTaxonomy.py lines
84-94): the child is unprocessed, not itself a partial-area root, has the
traversal root's signature, and no other parent of the child (other than the
traversal parent of the current node) is both unprocessed and has the root's
signature.  `processed1` is the processed set *after* the current node has
been added to it, matching the order of the Python statements. -/
def kidCond (H : Hierarchy ℕ) (sig : ℕ → Finset ℕ) (roots : List ℕ)
    (rootRels : Finset ℕ) (par0 : Option ℕ) (processed1 : Finset ℕ) (child : ℕ) : Prop :=
  child ∉ processed1 ∧ child ∉ roots ∧ sig child = rootRels ∧
    ¬ ∃ p ∈ H.parents child, some p ≠ par0 ∧ p ∉ processed1 ∧ sig p = rootRels

instance (H : Hierarchy ℕ) (sig : ℕ → Finset ℕ) (roots : List ℕ)
    (rootRels : Finset ℕ) (par0 : Option ℕ) (processed1 : Finset ℕ) (child : ℕ) :
    Decidable (kidCond H sig roots rootRels par0 processed1 child) := by
  unfold kidCond
  infer_instance

/-- The children admitted by the guard at one expansion step. -/
def kidsOf (H : Hierarchy ℕ) (sig : ℕ → Finset ℕ) (roots : List ℕ)
    (rootRels : Finset ℕ) (par0 : Option ℕ) (processed1 : Finset ℕ) (c0 : ℕ) : List ℕ :=
  (H.children c0).filter fun child =>
    decide (kidCond H sig roots rootRels par0 processed1 child)

/-- Embeds `stack.append((child, concept))` for each admitted child (the Lean stack
keeps its top at the head, so Python's append-then-pop-from-the-end order is
matched by prepending). -/
def pushStack (c0 : ℕ) (kids : List ℕ) (rest : List (ℕ × Option ℕ)) :
    List (ℕ × Option ℕ) :=
  kids.foldl (fun s k => (k, some c0) :: s) rest

/-- Embeds `concept_to_root[child] = root` for each admitted child; the association
list records dict writes most-recent-first, so `List.lookup` (first match)
gives the dict's current value. -/
def pushAssign (rootC : ℕ) (kids : List ℕ) (assign : List (ℕ × ℕ)) :
    List (ℕ × ℕ) :=
  kids.foldl (fun a k => (k, rootC) :: a) assign

theorem pushStack_length (c0 : ℕ) (kids : List ℕ) (rest : List (ℕ × Option ℕ)) :
    (pushStack c0 kids rest).length = kids.length + rest.length := by
  induction kids generalizing rest with
  | nil => simp [pushStack]
  | cons k ks ih =>
    rw [pushStack, List.foldl_cons]
    have := ih ((k, some c0) :: rest)
    rw [pushStack] at this
    rw [this]
    simp
    omega

theorem mem_pushStack {c0 : ℕ} {kids : List ℕ} {rest : List (ℕ × Option ℕ)}
    {x : ℕ × Option ℕ} :
    x ∈ pushStack c0 kids rest ↔ (∃ k ∈ kids, x = (k, some c0)) ∨ x ∈ rest := by
  induction kids generalizing rest with
  | nil => simp [pushStack]
  | cons k ks ih =>
    rw [pushStack, List.foldl_cons]
    have hstep := @ih ((k, some c0) :: rest)
    rw [pushStack] at hstep
    rw [hstep]
    simp only [List.mem_cons]
    constructor
    · rintro (⟨k', hk', rfl⟩ | rfl | hx)
      · exact Or.inl ⟨k', Or.inr hk', rfl⟩
      · exact Or.inl ⟨k, Or.inl rfl, rfl⟩
      · exact Or.inr hx
    · rintro (⟨k', rfl | hk', rfl⟩ | hx)
      · exact Or.inr (Or.inl rfl)
      · exact Or.inl ⟨k', hk', rfl⟩
      · exact Or.inr (Or.inr hx)

theorem mem_pushAssign {rootC : ℕ} {kids : List ℕ} {assign : List (ℕ × ℕ)}
    {x : ℕ × ℕ} :
    x ∈ pushAssign rootC kids assign ↔ (∃ k ∈ kids, x = (k, rootC)) ∨ x ∈ assign := by
  induction kids generalizing assign with
  | nil => simp [pushAssign]
  | cons k ks ih =>
    rw [pushAssign, List.foldl_cons]
    have hstep := @ih ((k, rootC) :: assign)
    rw [pushAssign] at hstep
    rw [hstep]
    simp only [List.mem_cons]
    constructor
    · rintro (⟨k', hk', rfl⟩ | rfl | hx)
      · exact Or.inl ⟨k', Or.inr hk', rfl⟩
      · exact Or.inl ⟨k, Or.inl rfl, rfl⟩
      · exact Or.inr hx
    · rintro (⟨k', rfl | hk', rfl⟩ | hx)
      · exact Or.inr (Or.inl rfl)
      · exact Or.inl ⟨k', hk', rfl⟩
      · exact Or.inr (Or.inr hx)

theorem lookup_pushAssign (rootC : ℕ) (kids : List ℕ) (assign : List (ℕ × ℕ))
    (x : ℕ) :
    (pushAssign rootC kids assign).lookup x =
      if x ∈ kids then some rootC else assign.lookup x := by
  induction kids generalizing assign with
  | nil => simp [pushAssign]
  | cons k ks ih =>
    rw [pushAssign, List.foldl_cons]
    have hstep := ih ((k, rootC) :: assign)
    rw [pushAssign] at hstep
    rw [hstep]
    by_cases hx : x ∈ ks
    · simp [hx, List.mem_cons, or_true]
    · by_cases hxk : x = k
      · subst hxk
        simp [hx, List.lookup]
      · have hbeq : (x == k) = false := by
          simp [hxk]
        simp only [List.mem_cons, hx, hxk, false_or, if_false]
        simp [List.lookup, hbeq]

/-- The depth-first assignment loop of `create_area_taxonomy` (AreaTaxonomy.py
lines 74-96): pop a `(concept, parent)` pair, skip it if already processed,
otherwise mark it processed and assign-and-push each child passing the guard.
`rootC` is the partial-area root of the current traversal and `rootRels` its
cached signature. -/
def sweepLoop (H : Hierarchy ℕ) (sig : ℕ → Finset ℕ) (roots : List ℕ)
    (rootC : ℕ) (rootRels : Finset ℕ) (stack : List (ℕ × Option ℕ))
    (processed : Finset ℕ) (assign : List (ℕ × ℕ)) :
    Finset ℕ × List (ℕ × ℕ) :=
  match stack with
  | [] => (processed, assign)
  | (c0, par0) :: rest =>
    if c0 ∈ processed then
      sweepLoop H sig roots rootC rootRels rest processed assign
    else
      sweepLoop H sig roots rootC rootRels
        (pushStack c0 (kidsOf H sig roots rootRels par0 (insert c0 processed) c0) rest)
        (insert c0 processed)
        (pushAssign rootC (kidsOf H sig roots rootRels par0 (insert c0 processed) c0) assign)
termination_by
  (H.edges.length + 2) * (H.nodesFinset \ processed).card + stack.length
decreasing_by
  · exact Nat.add_lt_add_left (Nat.lt_succ_self _) _
  · rename_i hc0
    rw [pushStack_length]
    by_cases hmem : c0 ∈ H.nodesFinset
    · have hsub : H.nodesFinset \ insert c0 processed ⊂ H.nodesFinset \ processed := by
        constructor
        · intro x hx
          simp only [Finset.mem_sdiff, Finset.mem_insert] at hx ⊢
          exact ⟨hx.1, fun h => hx.2 (Or.inr h)⟩
        · intro hsub'
          have : c0 ∈ H.nodesFinset \ insert c0 processed :=
            hsub' (by simp [Finset.mem_sdiff, hmem, hc0])
          simp at this
      have hcard : (H.nodesFinset \ insert c0 processed).card + 1 ≤
          (H.nodesFinset \ processed).card := Finset.card_lt_card hsub
      have hkids : (kidsOf H sig roots rootRels par0 (insert c0 processed) c0).length ≤
          H.edges.length :=
        le_trans (List.length_filter_le _ _) (H.children_length_le_edges c0)
      have hmul := Nat.mul_le_mul_left (H.edges.length + 2) hcard
      rw [Nat.mul_add, Nat.mul_one] at hmul
      simp only [List.length_cons]
      omega
    · have hkids : kidsOf H sig roots rootRels par0 (insert c0 processed) c0 = [] := by
        have : H.children c0 = [] := by
          by_contra hne
          exact hmem (List.mem_toFinset.mpr (H.mem_nodesList_of_children_ne_nil hne))
        simp [kidsOf, this]
      have hdiff : H.nodesFinset \ insert c0 processed = H.nodesFinset \ processed := by
        ext x
        simp only [Finset.mem_sdiff, Finset.mem_insert]
        constructor
        · rintro ⟨h1, h2⟩
          exact ⟨h1, fun h => h2 (Or.inr h)⟩
        · rintro ⟨h1, h2⟩
          refine ⟨h1, ?_⟩
          rintro (rfl | h)
          · rw [Hierarchy.nodesFinset, List.mem_toFinset] at hmem
            exact hmem (by simpa [Hierarchy.nodesFinset, List.mem_toFinset] using h1)
          · exact h2 h
      rw [hkids, hdiff]
      simp only [List.length_nil, List.length_cons, Nat.zero_add]
      omega

/-- One iteration of the outer `for root in hierarchy.get_topological_ordering()`
loop (AreaTaxonomy.py lines 70-96): partial-area roots start a traversal with
`concept_to_root[root] = root` and the stack seeded with `(root, None)`;
other nodes are skipped. -/
def outerStep (H : Hierarchy ℕ) (sig : ℕ → Finset ℕ) (roots : List ℕ)
    (st : Finset ℕ × List (ℕ × ℕ)) (r : ℕ) : Finset ℕ × List (ℕ × ℕ) :=
  if r ∈ roots then
    sweepLoop H sig roots r (sig r) [(r, none)] st.1 ((r, r) :: st.2)
  else st

/-- The whole assignment sweep: fold `outerStep` over the topological
ordering, starting from an empty `processed` set and an empty
`concept_to_root` dict. -/
def assignSweep (H : Hierarchy ℕ) (sig : ℕ → Finset ℕ) : Finset ℕ × List (ℕ × ℕ) :=
  H.topo.foldl (outerStep H sig (pareaRootsList H sig)) (∅, [])

/-- The finished `concept_to_root` association list. -/
def finalAssign (H : Hierarchy ℕ) (sig : ℕ → Finset ℕ) : List (ℕ × ℕ) :=
  (assignSweep H sig).2

/-- Embeds `concept_to_root` as a partial map: the current dict value of a key. -/
def conceptToRoot (H : Hierarchy ℕ) (sig : ℕ → Finset ℕ) (c : ℕ) : Option ℕ :=
  (finalAssign H sig).lookup c

/-! ## Partial-area construction (`create_area_taxonomy`, Step 2) -/

/-- The keys currently present in the `concept_to_root` dict (the dict's
key set; the association list may carry shadowed duplicates, so keys are
deduplicated). -/
def assignKeys (assign : List (ℕ × ℕ)) : List ℕ :=
  (assign.map Prod.fst).dedup

/-- Embeds the set comprehension over `concept_to_root.items()` of
AreaTaxonomy.py lines 103-104: the concepts whose current dict value is
`root`. -/
def pareaConceptsList (assign : List (ℕ × ℕ)) (root : ℕ) : List ℕ :=
  (assignKeys assign).filter fun c => decide (assign.lookup c = some root)

/-- Step 2 of `create_area_taxonomy` (AreaTaxonomy.py lines 101-114): build
the PArea of one root from the assignment — a fresh `Hierarchy(root)` plus
every parent edge internal to the root's concept set, paired with the root's
cached signature. -/
def buildPArea (H : Hierarchy ℕ) (sig : ℕ → Finset ℕ) (assign : List (ℕ × ℕ))
    (root : ℕ) : PArea :=
  { concept_hierarchy :=
      { root := root
        edges := (pareaConceptsList assign root).flatMap fun c =>
          ((H.parents c).filter fun p =>
            decide (p ∈ pareaConceptsList assign root)).map fun p => (c, p)
        topo := [] }
    relationships := sig root }

/-- The values of `root_to_parea`: one PArea per partial-area root. -/
def createPAreas (H : Hierarchy ℕ) (sig : ℕ → Finset ℕ) : List PArea :=
  (pareaRootsList H sig).map (buildPArea H sig (finalAssign H sig))

/-! ## Area grouping (`create_area_taxonomy`, Step 3) -/

/-- The distinct relationship keys of `areas_by_rels`, in first-appearance
order. -/
def sigKeys (pareas : List PArea) : List (Finset ℕ) :=
  (pareas.map PArea.relationships).dedup

/-- Step 3 of `create_area_taxonomy` (AreaTaxonomy.py lines 118-126): group
the PAreas by relationship signature into Areas. -/
def createAreasList (H : Hierarchy ℕ) (sig : ℕ → Finset ℕ) : List Area :=
  (sigKeys (createPAreas H sig)).map fun k =>
    { pareasL := (createPAreas H sig).filter fun p => decide (p.relationships = k)
      relationships := k }

/-- Embeds `AreaTaxonomy` (AreaTaxonomy.py lines 10-38).  The Python object stores
`areas` as a set; the list preserves construction order (all uses are
order-insensitive). -/
structure AreaTaxonomy where
  areasList : List Area
  root_area : Area
deriving DecidableEq

namespace AreaTaxonomy

/-- The `_concept_areas` dict built in `AreaTaxonomy.__init__` (lines 19-22),
as the list of writes in insertion order. -/
def conceptAreasWrites (t : AreaTaxonomy) : List (ℕ × Area) :=
  t.areasList.flatMap fun a => a.get_conceptsL.map fun c => (c, a)

/-- Embeds `AreaTaxonomy.get_concept_area` (lines 30-31): a plain
`self._concept_areas.get(concept)`, returning `None` — not raising — when the
concept is in no Area.  A dict lookup returns the most recent write, hence
the reversed association-list lookup. -/
def get_concept_area (t : AreaTaxonomy) (c : ℕ) : PyOutcome (Option Area) :=
  .ok (t.conceptAreasWrites.reverse.lookup c)

/-- Embeds `AreaTaxonomy.get_areas`. -/
def get_areas (t : AreaTaxonomy) : List Area := t.areasList

end AreaTaxonomy

/-- Embeds `create_area_taxonomy` (AreaTaxonomy.py lines 41-137): the assignment
sweep, PArea construction and Area grouping above, then the root Area is
found by `next(area for area in areas if hierarchy.get_root() in
area.get_concepts())` — `none` models the `StopIteration` a bare `next`
raises when no Area contains the global root. -/
def createAreaTaxonomy (H : Hierarchy ℕ) (sig : ℕ → Finset ℕ) :
    Option AreaTaxonomy :=
  ((createAreasList H sig).find? fun a => decide (H.root ∈ a.get_concepts)).map
    fun ra => { areasList := createAreasList H sig, root_area := ra }

/-! ## The PArea hierarchy (`create_parea_taxonomy`, PAreaTaxonomy.py 77-143) -/

/-- Embeds `PAreaTaxonomy` (PAreaTaxonomy.py lines 12-31). -/
structure PAreaTaxonomy where
  area_taxonomy : AreaTaxonomy
  parea_hierarchy : Hierarchy PArea
deriving DecidableEq

namespace PAreaTaxonomy

/-- Embeds `PAreaTaxonomy.get_area_for` (lines 23-25): `next(area for area in areas
if parea in area.get_pareas())` — raises `StopIteration` when the PArea
belongs to no Area of this taxonomy (PAreas lie in at most one Area, so the
set-iteration order is immaterial). -/
def get_area_for (t : PAreaTaxonomy) (p : PArea) : PyOutcome Area :=
  match t.area_taxonomy.areasList.find? fun a => decide (p ∈ a.get_pareas) with
  | some a => .ok a
  | none => .stopIteration

/-- Embeds `PAreaTaxonomy.get_root_parea`. -/
def get_root_parea (t : PAreaTaxonomy) : PArea := t.parea_hierarchy.root

end PAreaTaxonomy

/-- The candidate parent computation of `create_parea_taxonomy`
(PAreaTaxonomy.py lines 108-119): for each parent concept of the PArea's
root, find the PArea containing it (`next(root for root, p in
root_to_parea.items() if parent_concept in p.get_concepts())`, whose failure
— `StopIteration` — is modelled by `none`, and whose result is unique because
PArea concept sets are disjoint, making the dict-iteration order immaterial);
keep it only if its root's cached signature is a strict subset of this PArea's.
`root_to_parea` is rebuilt in the source from the area taxonomy's areas; its
value collection is exactly the PArea list, each keyed by its own root. -/
def collectParentPAreas (pareas : List PArea) : List ℕ → Option (List PArea)
  | [] => some []
  | pc :: rest =>
    (pareas.find? fun p => decide (pc ∈ p.get_conceptsF)).bind fun q =>
      (collectParentPAreas pareas rest).map fun qs => q :: qs

def candidateParents (H : Hierarchy ℕ) (sig : ℕ → Finset ℕ)
    (pareas : List PArea) (A : PArea) : Option (List PArea) :=
  (collectParentPAreas pareas (H.parents A.get_root)).map
    fun qs => (qs.filter fun q =>
      decide (sig q.get_root ⊆ sig A.get_root ∧ sig q.get_root ≠ sig A.get_root)).dedup

/-- The transitive-reduction filter of `create_parea_taxonomy`
(PAreaTaxonomy.py lines 121-137): a candidate is an immediate parent iff no
other candidate's root signature strictly contains its root signature. -/
def immediateParents (sig : ℕ → Finset ℕ) (cands : List PArea) : List PArea :=
  cands.filter fun p => decide (¬ ∃ q ∈ cands, q ≠ p ∧
    sig p.get_root ⊆ sig q.get_root ∧ sig p.get_root ≠ sig q.get_root)

/-- The edge-accumulating loop of `create_parea_taxonomy` (lines 100-141):
for each non-root PArea, an edge to each immediate parent.  `none` propagates
a `StopIteration` from the candidate lookup. -/
def buildPAreaEdges (H : Hierarchy ℕ) (sig : ℕ → Finset ℕ)
    (pareas : List PArea) : List PArea → Option (List (PArea × PArea))
  | [] => some []
  | A :: rest =>
    (candidateParents H sig pareas A).bind fun cs =>
      (buildPAreaEdges H sig pareas rest).map fun es =>
        ((immediateParents sig cs).map fun P => (A, P)) ++ es

/-- Embeds `create_parea_taxonomy` (PAreaTaxonomy.py lines 77-143): build the area
taxonomy, locate the root PArea (`root_to_parea[hierarchy.get_root()]`, a
dict lookup whose `KeyError` is modelled by `none`), then add edges from every
other PArea to its immediate parents. -/
def createPAreaTaxonomy (H : Hierarchy ℕ) (sig : ℕ → Finset ℕ) :
    Option PAreaTaxonomy :=
  (createAreaTaxonomy H sig).bind fun at_ =>
    ((createPAreas H sig).find? fun p => decide (p.get_root = H.root)).bind
      fun rootP =>
        (buildPAreaEdges H sig (createPAreas H sig)
            ((createPAreas H sig).filter fun p => decide (p ≠ rootP))).map
          fun es =>
            { area_taxonomy := at_
              parea_hierarchy := { root := rootP, edges := es, topo := [] } }

/-! ## The depth visitor (`core/hierarchy/visitor/HierarchyDepthVisitor.py`) -/

/-- State of a `HierarchyDepthVisitor`: `depth` is a `defaultdict(int)`
(absent keys read as `0`), `result` the list of appended records.  Modelled
from the spec: the `AncestorDepthResult` class referenced on line 14 is not
under `src/`; its constructor call `AncestorDepthResult(node, depth)` is
embedded as the pair `(node, depth)`. -/
structure DepthVisitor where
  depth : ℕ → ℤ
  result : List (ℕ × ℤ)

/-- The fresh visitor built by `HierarchyDepthVisitor.__init__`. -/
def DepthVisitor.init : DepthVisitor :=
  { depth := fun _ => 0, result := [] }

/-- Embeds `max([...] or [-1])`: Python's `max` of the parents' recorded depths,
falling back to `-1` when the node has no parents. -/
def maxParentDepth (H : Hierarchy ℕ) (st : DepthVisitor) (node : ℕ) : ℤ :=
  match (H.parents node).map st.depth with
  | [] => -1
  | d :: ds => ds.foldl max d

/-- Embeds `HierarchyDepthVisitor.visit` (lines 11-14): record
`depth[node] = max(parent depths, default -1) + 1` and append an
`AncestorDepthResult`. -/
def DepthVisitor.visit (H : Hierarchy ℕ) (st : DepthVisitor) (node : ℕ) :
    DepthVisitor :=
  { depth := Function.update st.depth node (maxParentDepth H st node + 1)
    result := st.result ++ [(node, maxParentDepth H st node + 1)] }

/-- Visiting a list of nodes in order. -/
def DepthVisitor.visitAll (H : Hierarchy ℕ) (order : List ℕ) : DepthVisitor :=
  order.foldl (DepthVisitor.visit H) DepthVisitor.init

/-- Embeds `HierarchyDepthVisitor.get_all_depths` (lines 19-20). -/
def DepthVisitor.get_all_depths (st : DepthVisitor) : ℕ → ℤ := st.depth

/-- An upward path through parent edges ending at a parentless node: the
chains over which `HierarchyDepthVisitor` depths are maximal path lengths. -/
inductive UpPath (H : Hierarchy ℕ) : List ℕ → Prop where
  | single (n : ℕ) : H.parents n = [] → UpPath H [n]
  | cons (n p : ℕ) (l : List ℕ) : p ∈ H.parents n → UpPath H (p :: l) →
      UpPath H (n :: p :: l)

/-! ## Dictionary (association-list) helper lemmas -/

theorem lookup_eq_some_mem {l : List (ℕ × ℕ)} {k v : ℕ}
    (h : l.lookup k = some v) : (k, v) ∈ l := by
  induction l with
  | nil => simp [List.lookup] at h
  | cons a t ih =>
    obtain ⟨a1, a2⟩ := a
    by_cases hk : k = a1
    · subst hk
      simp [List.lookup] at h
      simp [h]
    · have hbeq : (k == a1) = false := by simp [hk]
      rw [List.lookup, hbeq] at h
      exact List.mem_cons_of_mem _ (ih h)

theorem lookup_isSome_iff_mem_keys {l : List (ℕ × ℕ)} {k : ℕ} :
    (l.lookup k).isSome ↔ k ∈ assignKeys l := by
  rw [assignKeys, List.mem_dedup]
  induction l with
  | nil => simp [List.lookup]
  | cons a t ih =>
    obtain ⟨a1, a2⟩ := a
    by_cases hk : k = a1
    · subst hk
      simp [List.lookup]
    · have hbeq : (k == a1) = false := by simp [hk]
      rw [List.lookup, hbeq]
      simp only [List.map_cons, List.mem_cons]
      rw [ih]
      constructor
      · exact fun h => Or.inr h
      · rintro (h | h)
        · exact absurd h hk
        · exact h

theorem mem_keys_of_lookup {l : List (ℕ × ℕ)} {k v : ℕ}
    (h : l.lookup k = some v) : k ∈ assignKeys l :=
  lookup_isSome_iff_mem_keys.mp (by simp [h])

theorem mem_pareaConceptsList {assign : List (ℕ × ℕ)} {root c : ℕ} :
    c ∈ pareaConceptsList assign root ↔ assign.lookup c = some root := by
  rw [pareaConceptsList, List.mem_filter]
  simp only [decide_eq_true_eq]
  constructor
  · exact fun h => h.2
  · exact fun h => ⟨mem_keys_of_lookup h, h⟩

/-! ## Invariants of the assignment sweep -/

/-- The property every `concept_to_root` entry satisfies: the value is a
partial-area root with the key's signature, and a key that is itself a
partial-area root maps to itself. -/
def entryOK (H : Hierarchy ℕ) (sig : ℕ → Finset ℕ) (x : ℕ × ℕ) : Prop :=
  x.2 ∈ pareaRootsList H sig ∧ sig x.1 = sig x.2 ∧
    (x.1 ∈ pareaRootsList H sig → x.1 = x.2)

theorem sweepLoop_processed_mono (H : Hierarchy ℕ) (sig : ℕ → Finset ℕ)
    (roots : List ℕ) (rootC : ℕ) (rootRels : Finset ℕ)
    (stack : List (ℕ × Option ℕ)) (processed : Finset ℕ) (assign : List (ℕ × ℕ)) :
    processed ⊆ (sweepLoop H sig roots rootC rootRels stack processed assign).1 := by
  induction stack, processed, assign using sweepLoop.induct H sig roots rootC rootRels with
  | case1 processed assign =>
    rw [sweepLoop]
  | case2 processed assign c0 par0 rest hmem ih =>
    rw [sweepLoop]
    simp only [hmem, if_true]
    exact ih
  | case3 processed assign c0 par0 rest hmem ih =>
    rw [sweepLoop]
    simp only [hmem, if_false]
    exact fun x hx => ih (Finset.mem_insert_of_mem hx)

theorem sweepLoop_stack_processed (H : Hierarchy ℕ) (sig : ℕ → Finset ℕ)
    (roots : List ℕ) (rootC : ℕ) (rootRels : Finset ℕ)
    (stack : List (ℕ × Option ℕ)) (processed : Finset ℕ) (assign : List (ℕ × ℕ)) :
    ∀ x ∈ stack, x.1 ∈ (sweepLoop H sig roots rootC rootRels stack processed assign).1 := by
  induction stack, processed, assign using sweepLoop.induct H sig roots rootC rootRels with
  | case1 processed assign =>
    intro x hx
    cases hx
  | case2 processed assign c0 par0 rest hmem ih =>
    intro x hx
    rw [sweepLoop]
    simp only [hmem, if_true]
    rcases List.mem_cons.mp hx with rfl | hx
    · exact sweepLoop_processed_mono H sig roots rootC rootRels _ _ _ hmem
    · exact ih x hx
  | case3 processed assign c0 par0 rest hmem ih =>
    intro x hx
    rw [sweepLoop]
    simp only [hmem, if_false]
    rcases List.mem_cons.mp hx with rfl | hx
    · exact sweepLoop_processed_mono H sig roots rootC rootRels _ _ _
        (Finset.mem_insert_self _ _)
    · exact ih x (mem_pushStack.mpr (Or.inr hx))

theorem sweepLoop_assign_mem (H : Hierarchy ℕ) (sig : ℕ → Finset ℕ)
    (roots : List ℕ) (rootC : ℕ) (rootRels : Finset ℕ)
    (stack : List (ℕ × Option ℕ)) (processed : Finset ℕ) (assign : List (ℕ × ℕ)) :
    ∀ x ∈ assign, x ∈ (sweepLoop H sig roots rootC rootRels stack processed assign).2 := by
  induction stack, processed, assign using sweepLoop.induct H sig roots rootC rootRels with
  | case1 processed assign =>
    intro x hx
    rw [sweepLoop]
    exact hx
  | case2 processed assign c0 par0 rest hmem ih =>
    intro x hx
    rw [sweepLoop]
    simp only [hmem, if_true]
    exact ih x hx
  | case3 processed assign c0 par0 rest hmem ih =>
    intro x hx
    rw [sweepLoop]
    simp only [hmem, if_false]
    exact ih x (mem_pushAssign.mpr (Or.inr hx))

/-- Every entry written by the sweep satisfies `entryOK`, provided the
traversal root is a partial-area root carrying its own signature. -/
theorem sweepLoop_entryOK (H : Hierarchy ℕ) (sig : ℕ → Finset ℕ)
    (rootC : ℕ) (rootRels : Finset ℕ)
    (hrC : rootC ∈ pareaRootsList H sig) (hrR : rootRels = sig rootC)
    (stack : List (ℕ × Option ℕ)) (processed : Finset ℕ) (assign : List (ℕ × ℕ))
    (hpre : ∀ x ∈ assign, entryOK H sig x) :
    ∀ x ∈ (sweepLoop H sig (pareaRootsList H sig) rootC rootRels stack processed assign).2,
      entryOK H sig x := by
  induction stack, processed, assign using
    sweepLoop.induct H sig (pareaRootsList H sig) rootC rootRels with
  | case1 processed assign =>
    rw [sweepLoop]
    exact hpre
  | case2 processed assign c0 par0 rest hmem ih =>
    rw [sweepLoop]
    simp only [hmem, if_true]
    exact ih hpre
  | case3 processed assign c0 par0 rest hmem ih =>
    rw [sweepLoop]
    simp only [hmem, if_false]
    refine ih ?_
    intro x hx
    rcases mem_pushAssign.mp hx with ⟨k, hk, rfl⟩ | hx
    · rw [kidsOf, List.mem_filter, decide_eq_true_eq] at hk
      obtain ⟨-, hkc⟩ := hk
      obtain ⟨hk1, hk2, hk3, -⟩ := hkc
      exact ⟨hrC, by rw [hk3, hrR], fun h => absurd h hk2⟩
    · exact hpre x hx

theorem mem_assignKeys_iff {l : List (ℕ × ℕ)} {c : ℕ} :
    c ∈ assignKeys l ↔ ∃ v, (c, v) ∈ l := by
  rw [assignKeys, List.mem_dedup, List.mem_map]
  constructor
  · rintro ⟨⟨c1, v⟩, hm, rfl⟩
    exact ⟨v, hm⟩
  · rintro ⟨v, hv⟩
    exact ⟨(c, v), hv, rfl⟩

theorem mem_kidsOf {H : Hierarchy ℕ} {sig : ℕ → Finset ℕ} {roots : List ℕ}
    {rootRels : Finset ℕ} {par0 : Option ℕ} {processed1 : Finset ℕ} {c0 k : ℕ} :
    k ∈ kidsOf H sig roots rootRels par0 processed1 c0 ↔
      k ∈ H.children c0 ∧ kidCond H sig roots rootRels par0 processed1 k := by
  rw [kidsOf, List.mem_filter, decide_eq_true_eq]

/-- The stationary-witness invariant of the `concept_to_root` dict: a concept
assigned to a root other than itself always has a parent assigned to the same
root (the parent that pushed it on the traversal stack). -/
def parentInv (H : Hierarchy ℕ) (assign : List (ℕ × ℕ)) : Prop :=
  ∀ c v, assign.lookup c = some v → c ≠ v →
    ∃ p ∈ H.parents c, assign.lookup p = some v

/-- Combined data invariant carried through the inner sweep: stack entries
are assigned to the traversal root, every dict key is processed or on the
stack, every processed node has a dict entry, and the parent-witness
invariant holds. -/
theorem sweepLoop_inv (H : Hierarchy ℕ) (sig : ℕ → Finset ℕ) (roots : List ℕ)
    (rootC : ℕ) (rootRels : Finset ℕ)
    (stack : List (ℕ × Option ℕ)) (processed : Finset ℕ) (assign : List (ℕ × ℕ))
    (h1 : ∀ x ∈ stack, assign.lookup x.1 = some rootC)
    (h2 : ∀ c ∈ assignKeys assign, c ∈ processed ∨ ∃ x ∈ stack, x.1 = c)
    (h3 : ∀ c ∈ processed, (assign.lookup c).isSome)
    (h4 : parentInv H assign) :
    (∀ c ∈ assignKeys (sweepLoop H sig roots rootC rootRels stack processed assign).2,
        c ∈ (sweepLoop H sig roots rootC rootRels stack processed assign).1) ∧
    (∀ c ∈ (sweepLoop H sig roots rootC rootRels stack processed assign).1,
        ((sweepLoop H sig roots rootC rootRels stack processed assign).2.lookup c).isSome) ∧
    parentInv H (sweepLoop H sig roots rootC rootRels stack processed assign).2 := by
  induction stack, processed, assign using sweepLoop.induct H sig roots rootC rootRels with
  | case1 processed assign =>
    rw [sweepLoop]
    refine ⟨?_, h3, h4⟩
    intro c hc
    rcases h2 c hc with h | ⟨x, hx, rfl⟩
    · exact h
    · cases hx
  | case2 processed assign c0 par0 rest hmem ih =>
    rw [sweepLoop]
    simp only [hmem, if_true]
    refine ih (fun x hx => h1 x (List.mem_cons_of_mem _ hx)) ?_ h3 h4
    intro c hc
    rcases h2 c hc with h | ⟨x, hx, rfl⟩
    · exact Or.inl h
    · rcases List.mem_cons.mp hx with rfl | hx
      · exact Or.inl hmem
      · exact Or.inr ⟨x, hx, rfl⟩
  | case3 processed assign c0 par0 rest hmem ih =>
    rw [sweepLoop]
    simp only [hmem, if_false]
    have hc0lookup : assign.lookup c0 = some rootC := h1 (c0, par0) (List.mem_cons_self _ _)
    have hc0notkid : c0 ∉ kidsOf H sig roots rootRels par0 (insert c0 processed) c0 := by
      intro hk
      exact (mem_kidsOf.mp hk).2.1 (Finset.mem_insert_self _ _)
    have hlookup' : ∀ x : ℕ,
        (pushAssign rootC (kidsOf H sig roots rootRels par0 (insert c0 processed) c0) assign).lookup x =
          if x ∈ kidsOf H sig roots rootRels par0 (insert c0 processed) c0 then some rootC
          else assign.lookup x := fun x => lookup_pushAssign _ _ _ x
    -- a dict key lying in the kid list must be an unprocessed stack concept,
    -- hence assigned to the traversal root already
    have hkidold : ∀ p, p ∈ kidsOf H sig roots rootRels par0 (insert c0 processed) c0 →
        ∀ v, assign.lookup p = some v → v = rootC := by
      intro p hp v hv
      have hnotproc : p ∉ insert c0 processed := (mem_kidsOf.mp hp).2.1
      rcases h2 p (mem_keys_of_lookup hv) with h | ⟨x, hx, rfl⟩
      · exact absurd (Finset.mem_insert_of_mem h) hnotproc
      · rcases List.mem_cons.mp hx with heq | hx
        · exfalso
          apply hnotproc
          rw [show x.1 = c0 from congrArg Prod.fst heq]
          exact Finset.mem_insert_self _ _
        · have := h1 x (List.mem_cons_of_mem _ hx)
          rw [this] at hv
          exact (Option.some_inj.mp hv).symm
    refine ih ?_ ?_ ?_ ?_
    · intro x hx
      rcases mem_pushStack.mp hx with ⟨k, hk, rfl⟩ | hx
      · rw [hlookup']
        simp [hk]
      · rw [hlookup']
        by_cases hmem2 : x.1 ∈ kidsOf H sig roots rootRels par0 (insert c0 processed) c0
        · simp [hmem2]
        · simp only [hmem2, if_false]
          exact h1 x (List.mem_cons_of_mem _ hx)
    · intro c hc
      rcases mem_assignKeys_iff.mp hc with ⟨v, hv⟩
      rcases mem_pushAssign.mp hv with ⟨k, hk, heq⟩ | hv
      · refine Or.inr ⟨(c, some c0), ?_, rfl⟩
        rw [show c = k from congrArg Prod.fst heq]
        exact mem_pushStack.mpr (Or.inl ⟨k, hk, rfl⟩)
      · rcases h2 c (mem_assignKeys_iff.mpr ⟨v, hv⟩) with h | ⟨x, hx, rfl⟩
        · exact Or.inl (Finset.mem_insert_of_mem h)
        · rcases List.mem_cons.mp hx with rfl | hx
          · exact Or.inl (Finset.mem_insert_self _ _)
          · exact Or.inr ⟨x, mem_pushStack.mpr (Or.inr hx), rfl⟩
    · intro c hc
      rw [hlookup']
      by_cases hck : c ∈ kidsOf H sig roots rootRels par0 (insert c0 processed) c0
      · simp [hck]
      · simp only [hck, if_false]
        rcases Finset.mem_insert.mp hc with rfl | hc
        · simp [hc0lookup]
        · exact h3 c hc
    · intro c v hcv hne
      rw [hlookup'] at hcv
      by_cases hck : c ∈ kidsOf H sig roots rootRels par0 (insert c0 processed) c0
      · rw [if_pos hck] at hcv
        obtain rfl : rootC = v := Option.some_inj.mp hcv
        refine ⟨c0, ?_, ?_⟩
        · exact (H.mem_children_iff_mem_parents c c0).mp (mem_kidsOf.mp hck).1
        · rw [hlookup', if_neg hc0notkid]
          exact hc0lookup
      · rw [if_neg hck] at hcv
        obtain ⟨p, hp, hpl⟩ := h4 c v hcv hne
        refine ⟨p, hp, ?_⟩
        rw [hlookup']
        by_cases hpk : p ∈ kidsOf H sig roots rootRels par0 (insert c0 processed) c0
        · rw [if_pos hpk, hkidold p hpk v hpl]
        · rw [if_neg hpk]
          exact hpl

/-- The deferral argument: a non-root node whose matching-signature parents
all end up processed by a sweep, but which itself survives the sweep
unprocessed, must have had all those parents already processed (and itself
unprocessed) when the sweep started.  Contrapositively: the sweep that
processes the last matching parent of a non-root node claims the node. -/
theorem sweepLoop_deferred (H : Hierarchy ℕ) (sig : ℕ → Finset ℕ)
    (rootC : ℕ) (rootRels : Finset ℕ) (n : ℕ)
    (hn : n ∉ pareaRootsList H sig)
    (stack : List (ℕ × Option ℕ)) (processed : Finset ℕ) (assign : List (ℕ × ℕ))
    (hsig : ∀ x ∈ stack, sig x.1 = rootRels)
    (hM : ∀ p ∈ H.parents n, sig p = sig n →
        p ∈ (sweepLoop H sig (pareaRootsList H sig) rootC rootRels stack processed assign).1)
    (hnot : n ∉ (sweepLoop H sig (pareaRootsList H sig) rootC rootRels stack processed assign).1) :
    (∀ p ∈ H.parents n, sig p = sig n → p ∈ processed) ∧ n ∉ processed := by
  induction stack, processed, assign using
    sweepLoop.induct H sig (pareaRootsList H sig) rootC rootRels with
  | case1 processed assign =>
    rw [sweepLoop] at hM hnot
    exact ⟨hM, hnot⟩
  | case2 processed assign c0 par0 rest hmem ih =>
    rw [sweepLoop] at hM hnot
    simp only [hmem, if_true] at hM hnot
    exact ih (fun x hx => hsig x (List.mem_cons_of_mem _ hx)) hM hnot
  | case3 processed assign c0 par0 rest hmem ih =>
    rw [sweepLoop] at hM hnot
    simp only [hmem, if_false] at hM hnot
    have hc0sig : sig c0 = rootRels := hsig (c0, par0) (List.mem_cons_self _ _)
    have hsig' : ∀ x ∈ pushStack c0 (kidsOf H sig (pareaRootsList H sig) rootRels par0
        (insert c0 processed) c0) rest, sig x.1 = rootRels := by
      intro x hx
      rcases mem_pushStack.mp hx with ⟨k, hk, rfl⟩ | hx
      · exact (mem_kidsOf.mp hk).2.2.2.1
      · exact hsig x (List.mem_cons_of_mem _ hx)
    obtain ⟨ihM, ihn⟩ := ih hsig' hM hnot
    -- the node is not newly processed either
    have hn_ne : n ∉ insert c0 processed := ihn
    by_cases hc0par : c0 ∈ H.parents n ∧ sig c0 = sig n
    · -- the current node is a matching parent of n: n passes the child guard
      -- and gets pushed, so the sweep processes it — contradiction
      exfalso
      have hnsig : sig n = rootRels := by
        rw [← hc0par.2, hc0sig]
      have hkc : kidCond H sig (pareaRootsList H sig) rootRels par0 (insert c0 processed) n := by
        refine ⟨hn_ne, hn, hnsig, ?_⟩
        rintro ⟨p, hp, -, hpnotproc, hpsig⟩
        have hpM : p ∈ insert c0 processed := by
          refine ihM p hp ?_
          rw [hpsig, hnsig]
        exact hpnotproc hpM
      have hkid : n ∈ kidsOf H sig (pareaRootsList H sig) rootRels par0
          (insert c0 processed) c0 :=
        mem_kidsOf.mpr ⟨(H.mem_children_iff_mem_parents n c0).mpr hc0par.1, hkc⟩
      apply hnot
      exact sweepLoop_stack_processed H sig (pareaRootsList H sig) rootC rootRels _ _ _
        (n, some c0) (mem_pushStack.mpr (Or.inl ⟨n, hkid, rfl⟩))
    · refine ⟨?_, fun h => ihn (Finset.mem_insert_of_mem h)⟩
      intro p hp hps
      rcases Finset.mem_insert.mp (ihM p hp hps) with rfl | h
      · exact absurd ⟨hp, hps⟩ hc0par
      · exact h

/-! ## Outer-loop invariants and completeness -/

theorem outerFold_processed_mono (H : Hierarchy ℕ) (sig : ℕ → Finset ℕ)
    (roots : List ℕ) :
    ∀ (l : List ℕ) (st : Finset ℕ × List (ℕ × ℕ)),
      st.1 ⊆ (l.foldl (outerStep H sig roots) st).1 := by
  intro l
  induction l with
  | nil => intro st; exact fun x hx => hx
  | cons r l' ih =>
    intro st
    rw [List.foldl_cons]
    refine subset_trans ?_ (ih (outerStep H sig roots st r))
    rw [outerStep]
    by_cases hr : r ∈ roots
    · simp only [hr, if_true]
      exact sweepLoop_processed_mono H sig roots r (sig r) _ _ _
    · simp only [hr, if_false]
      exact fun x hx => hx

theorem outerFold_assign_mem (H : Hierarchy ℕ) (sig : ℕ → Finset ℕ)
    (roots : List ℕ) :
    ∀ (l : List ℕ) (st : Finset ℕ × List (ℕ × ℕ)) (x : ℕ × ℕ),
      x ∈ st.2 → x ∈ (l.foldl (outerStep H sig roots) st).2 := by
  intro l
  induction l with
  | nil => intro st x hx; exact hx
  | cons r l' ih =>
    intro st x hx
    rw [List.foldl_cons]
    refine ih (outerStep H sig roots st r) x ?_
    rw [outerStep]
    by_cases hr : r ∈ roots
    · simp only [hr, if_true]
      exact sweepLoop_assign_mem H sig roots r (sig r) _ _ _ x
        (List.mem_cons_of_mem _ hx)
    · simp only [hr, if_false]
      exact hx

theorem outerFold_root_processed (H : Hierarchy ℕ) (sig : ℕ → Finset ℕ)
    (roots : List ℕ) :
    ∀ (l : List ℕ) (st : Finset ℕ × List (ℕ × ℕ)) (r : ℕ),
      r ∈ l → r ∈ roots → r ∈ (l.foldl (outerStep H sig roots) st).1 := by
  intro l
  induction l with
  | nil =>
    intro st r hr
    cases hr
  | cons a l' ih =>
    intro st r hr hroots
    rw [List.foldl_cons]
    rcases List.mem_cons.mp hr with rfl | hr
    · refine outerFold_processed_mono H sig roots l' _ ?_
      rw [outerStep]
      simp only [hroots, if_true]
      exact sweepLoop_stack_processed H sig roots r (sig r) _ _ _ (r, none)
        (List.mem_cons_self _ _)
    · exact ih _ r hr hroots

theorem outerFold_root_assigned (H : Hierarchy ℕ) (sig : ℕ → Finset ℕ)
    (roots : List ℕ) :
    ∀ (l : List ℕ) (st : Finset ℕ × List (ℕ × ℕ)) (r : ℕ),
      r ∈ l → r ∈ roots → (r, r) ∈ (l.foldl (outerStep H sig roots) st).2 := by
  intro l
  induction l with
  | nil =>
    intro st r hr
    cases hr
  | cons a l' ih =>
    intro st r hr hroots
    rw [List.foldl_cons]
    rcases List.mem_cons.mp hr with rfl | hr
    · refine outerFold_assign_mem H sig roots l' _ _ ?_
      rw [outerStep]
      simp only [hroots, if_true]
      exact sweepLoop_assign_mem H sig roots r (sig r) _ _ _ (r, r)
        (List.mem_cons_self _ _)
    · exact ih _ r hr hroots

theorem outerFold_deferred (H : Hierarchy ℕ) (sig : ℕ → Finset ℕ) (n : ℕ)
    (hn : n ∉ pareaRootsList H sig) :
    ∀ (l : List ℕ) (st : Finset ℕ × List (ℕ × ℕ)),
    (∀ p ∈ H.parents n, sig p = sig n →
        p ∈ (l.foldl (outerStep H sig (pareaRootsList H sig)) st).1) →
    n ∉ (l.foldl (outerStep H sig (pareaRootsList H sig)) st).1 →
    (∀ p ∈ H.parents n, sig p = sig n → p ∈ st.1) ∧ n ∉ st.1 := by
  intro l
  induction l with
  | nil =>
    intro st hM hnot
    exact ⟨hM, hnot⟩
  | cons r l' ih =>
    intro st hM hnot
    rw [List.foldl_cons] at hM hnot
    obtain ⟨hM', hn'⟩ := ih _ hM hnot
    rw [outerStep] at hM' hn'
    by_cases hr : r ∈ pareaRootsList H sig
    · simp only [hr, if_true] at hM' hn'
      exact sweepLoop_deferred H sig r (sig r) n hn _ _ _
        (by
          intro x hx
          rcases List.mem_cons.mp hx with rfl | hx
          · rfl
          · cases hx)
        hM' hn'
    · simp only [hr, if_false] at hM' hn'
      exact ⟨hM', hn'⟩

theorem finalAssign_entryOK (H : Hierarchy ℕ) (sig : ℕ → Finset ℕ) :
    ∀ x ∈ finalAssign H sig, entryOK H sig x := by
  rw [finalAssign, assignSweep]
  suffices h : ∀ (l : List ℕ) (st : Finset ℕ × List (ℕ × ℕ)),
      (∀ x ∈ st.2, entryOK H sig x) →
      ∀ x ∈ (l.foldl (outerStep H sig (pareaRootsList H sig)) st).2, entryOK H sig x by
    exact h H.topo (∅, []) (by intro x hx; cases hx)
  intro l
  induction l with
  | nil =>
    intro st hst
    exact hst
  | cons r l' ih =>
    intro st hst
    rw [List.foldl_cons]
    refine ih _ ?_
    rw [outerStep]
    by_cases hr : r ∈ pareaRootsList H sig
    · simp only [hr, if_true]
      refine sweepLoop_entryOK H sig r (sig r) hr rfl _ _ _ ?_
      intro x hx
      rcases List.mem_cons.mp hx with rfl | hx
      · exact ⟨hr, rfl, fun _ => rfl⟩
      · exact hst x hx
    · simp only [hr, if_false]
      exact hst

/-- The three data invariants at the end of the whole sweep: every dict key
is processed, every processed node has a dict entry, and the parent-witness
invariant holds for the finished `concept_to_root`. -/
theorem assignSweep_inv (H : Hierarchy ℕ) (sig : ℕ → Finset ℕ) :
    (∀ c ∈ assignKeys (assignSweep H sig).2, c ∈ (assignSweep H sig).1) ∧
    (∀ c ∈ (assignSweep H sig).1, ((assignSweep H sig).2.lookup c).isSome) ∧
    parentInv H (assignSweep H sig).2 := by
  rw [assignSweep]
  suffices h : ∀ (l : List ℕ) (st : Finset ℕ × List (ℕ × ℕ)),
      (∀ c ∈ assignKeys st.2, c ∈ st.1) →
      (∀ c ∈ st.1, (st.2.lookup c).isSome) →
      parentInv H st.2 →
      (∀ x ∈ st.2, entryOK H sig x) →
      (∀ c ∈ assignKeys (l.foldl (outerStep H sig (pareaRootsList H sig)) st).2,
          c ∈ (l.foldl (outerStep H sig (pareaRootsList H sig)) st).1) ∧
      (∀ c ∈ (l.foldl (outerStep H sig (pareaRootsList H sig)) st).1,
          ((l.foldl (outerStep H sig (pareaRootsList H sig)) st).2.lookup c).isSome) ∧
      parentInv H (l.foldl (outerStep H sig (pareaRootsList H sig)) st).2 by
    refine h H.topo (∅, []) ?_ ?_ ?_ ?_
    · intro c hc
      simp [assignKeys] at hc
    · intro c hc
      cases hc
    · intro c v hcv
      simp [List.lookup] at hcv
    · intro x hx
      cases hx
  intro l
  induction l with
  | nil =>
    intro st hk hp hpi _
    exact ⟨hk, hp, hpi⟩
  | cons r l' ih =>
    intro st hk hp hpi hok
    rw [List.foldl_cons]
    by_cases hr : r ∈ pareaRootsList H sig
    · have hstep : outerStep H sig (pareaRootsList H sig) st r =
          sweepLoop H sig (pareaRootsList H sig) r (sig r) [(r, none)] st.1 ((r, r) :: st.2) := by
        rw [outerStep, if_pos hr]
      have hlr : ∀ x : ℕ, ((r, r) :: st.2).lookup x =
          if x = r then some r else st.2.lookup x := by
        intro x
        by_cases hx : x = r
        · subst hx
          simp [List.lookup]
        · have hbeq : (x == r) = false := by simp [hx]
          rw [List.lookup, hbeq, if_neg hx]
      have hinv := sweepLoop_inv H sig (pareaRootsList H sig) r (sig r)
        [(r, none)] st.1 ((r, r) :: st.2)
        (by
          intro x hx
          rcases List.mem_cons.mp hx with rfl | hx
          · simp [List.lookup]
          · cases hx)
        (by
          intro c hc
          rcases mem_assignKeys_iff.mp hc with ⟨v, hv⟩
          rcases List.mem_cons.mp hv with heq | hv
          · refine Or.inr ⟨(r, none), List.mem_cons_self _ _, ?_⟩
            exact (congrArg Prod.fst heq).symm
          · exact Or.inl (hk c (mem_assignKeys_iff.mpr ⟨v, hv⟩)))
        (by
          intro c hc
          rw [hlr]
          by_cases hcr : c = r
          · simp [hcr]
          · rw [if_neg hcr]
            exact hp c hc)
        (by
          intro c v hcv hne
          rw [hlr] at hcv
          by_cases hcr : c = r
          · rw [if_pos hcr] at hcv
            exact absurd (hcr.trans (Option.some_inj.mp hcv)) hne
          · rw [if_neg hcr] at hcv
            obtain ⟨p, hpmem, hpl⟩ := hpi c v hcv hne
            refine ⟨p, hpmem, ?_⟩
            rw [hlr]
            by_cases hpr : p = r
            · subst hpr
              -- the old entry for a partial-area root has value the root itself
              have := hok (p, v) (lookup_eq_some_mem hpl)
              rw [if_pos rfl]
              have hv : p = v := by
                by_contra hne2
                exact hne2 (this.2.2 hr)
              rw [hv]
            · rw [if_neg hpr]
              exact hpl)
      rw [hstep]
      refine ih _ hinv.1 hinv.2.1 hinv.2.2 ?_
      rw [← hstep]
      have hok' : ∀ x ∈ ((r, r) :: st.2), entryOK H sig x := by
        intro x hx
        rcases List.mem_cons.mp hx with rfl | hx
        · exact ⟨hr, rfl, fun _ => rfl⟩
        · exact hok x hx
      rw [hstep]
      exact fun x hx => sweepLoop_entryOK H sig r (sig r) hr rfl _ _ _ hok' x hx
    · have hstep : outerStep H sig (pareaRootsList H sig) st r = st := by
        rw [outerStep, if_neg hr]
      rw [hstep]
      exact ih _ hk hp hpi hok

/-- Completeness of the sweep: under the Hierarchy contract, every node ends
up processed. -/
theorem assignSweep_processed_complete (H : Hierarchy ℕ) (sig : ℕ → Finset ℕ)
    (hwf : H.WF) : ∀ n ∈ H.nodesList, n ∈ (assignSweep H sig).1 := by
  obtain ⟨hnodup, htopo1, htopo2, hbefore, hrootp⟩ := hwf
  suffices h : ∀ (i : ℕ), ∀ n ∈ H.nodesList, H.topo.indexOf n = i →
      n ∈ (assignSweep H sig).1 by
    exact fun n hn => h (H.topo.indexOf n) n hn rfl
  intro i
  induction i using Nat.strong_induction_on with
  | _ i ih =>
    intro n hn hidx
    by_cases hroot : n ∈ pareaRootsList H sig
    · rw [assignSweep]
      exact outerFold_root_processed H sig _ H.topo _ n (htopo2 n hn) hroot
    · have hnR : ¬ isPAreaRoot H sig n := fun h =>
        hroot (mem_pareaRootsList.mpr ⟨hn, h⟩)
      rw [isPAreaRoot] at hnR
      push_neg at hnR
      obtain ⟨hpar_ne, hex⟩ := hnR
      by_contra hnot
      rw [assignSweep] at hnot
      have hM : ∀ p ∈ H.parents n, sig p = sig n →
          p ∈ (H.topo.foldl (outerStep H sig (pareaRootsList H sig)) (∅, [])).1 := by
        intro p hp hps
        have hp_nodes : p ∈ H.nodesList := Hierarchy.mem_nodesList_of_parent hp
        have hlt : H.topo.indexOf p < H.topo.indexOf n := hbefore n (htopo2 n hn) p hp
        rw [hidx] at hlt
        have := ih _ hlt p hp_nodes rfl
        rw [assignSweep] at this
        exact this
      obtain ⟨hMpre, -⟩ := outerFold_deferred H sig n hroot H.topo (∅, []) hM hnot
      obtain ⟨p, hp, hps⟩ := hex
      exact absurd (hMpre p hp hps) (Finset.not_mem_empty p)

/-- Under the Hierarchy contract, `concept_to_root` is total over the node
set. -/
theorem conceptToRoot_total (H : Hierarchy ℕ) (sig : ℕ → Finset ℕ)
    (hwf : H.WF) : ∀ n ∈ H.nodesList, (conceptToRoot H sig n).isSome := by
  intro n hn
  rw [conceptToRoot, finalAssign]
  exact (assignSweep_inv H sig).2.1 n (assignSweep_processed_complete H sig hwf n hn)

/-- A partial-area root is assigned to itself. -/
theorem conceptToRoot_of_root (H : Hierarchy ℕ) (sig : ℕ → Finset ℕ)
    (hwf : H.WF) {r : ℕ} (hr : r ∈ pareaRootsList H sig) :
    conceptToRoot H sig r = some r := by
  have hmem : r ∈ H.nodesList := (mem_pareaRootsList.mp hr).1
  have hsome := conceptToRoot_total H sig hwf r hmem
  obtain ⟨v, hv⟩ := Option.isSome_iff_exists.mp hsome
  simp only [conceptToRoot] at hv ⊢
  have hok := finalAssign_entryOK H sig (r, v) (lookup_eq_some_mem hv)
  have hrv : r = v := hok.2.2 hr
  rw [hv, hrv]

/-- Every `concept_to_root` value is a partial-area root with the key's
signature. -/
theorem conceptToRoot_values (H : Hierarchy ℕ) (sig : ℕ → Finset ℕ)
    {c v : ℕ} (h : conceptToRoot H sig c = some v) :
    v ∈ pareaRootsList H sig ∧ sig c = sig v ∧ (c ∈ pareaRootsList H sig → c = v) := by
  simp only [conceptToRoot] at h
  exact finalAssign_entryOK H sig (c, v) (lookup_eq_some_mem h)

/-- A node assigned to a root other than itself has a parent assigned to the
same root. -/
theorem conceptToRoot_parent_witness (H : Hierarchy ℕ) (sig : ℕ → Finset ℕ)
    {c v : ℕ} (h : conceptToRoot H sig c = some v) (hne : c ≠ v) :
    ∃ p ∈ H.parents c, conceptToRoot H sig p = some v := by
  simp only [conceptToRoot, finalAssign] at h ⊢
  exact (assignSweep_inv H sig).2.2 c v h hne

/-! ## The partial areas realize the assignment classes -/

theorem mem_buildPArea_edges {H : Hierarchy ℕ} {sig : ℕ → Finset ℕ}
    {assign : List (ℕ × ℕ)} {r : ℕ} {e : ℕ × ℕ} :
    e ∈ (buildPArea H sig assign r).concept_hierarchy.edges ↔
      e.1 ∈ pareaConceptsList assign r ∧ e.2 ∈ H.parents e.1 ∧
        e.2 ∈ pareaConceptsList assign r := by
  obtain ⟨e1, e2⟩ := e
  simp only [buildPArea, List.mem_flatMap, List.mem_map, List.mem_filter,
    decide_eq_true_eq]
  constructor
  · rintro ⟨c, hc, p, ⟨hp1, hp2⟩, heq⟩
    have hc1 : c = e1 := congrArg Prod.fst heq
    have hp3 : p = e2 := congrArg Prod.snd heq
    subst hc1
    subst hp3
    exact ⟨hc, hp1, hp2⟩
  · rintro ⟨h1, h2, h3⟩
    exact ⟨e1, h1, e2, ⟨h2, h3⟩, rfl⟩

theorem buildPArea_get_root (H : Hierarchy ℕ) (sig : ℕ → Finset ℕ)
    (assign : List (ℕ × ℕ)) (r : ℕ) :
    (buildPArea H sig assign r).get_root = r := rfl

theorem buildPArea_relationships (H : Hierarchy ℕ) (sig : ℕ → Finset ℕ)
    (assign : List (ℕ × ℕ)) (r : ℕ) :
    (buildPArea H sig assign r).relationships = sig r := rfl

/-- The node set of a constructed partial area is exactly the class of
concepts `concept_to_root` assigns to its root. -/
theorem mem_buildPArea_concepts (H : Hierarchy ℕ) (sig : ℕ → Finset ℕ)
    (hwf : H.WF) {r : ℕ} (hr : r ∈ pareaRootsList H sig) {c : ℕ} :
    c ∈ (buildPArea H sig (finalAssign H sig) r).get_conceptsF ↔
      conceptToRoot H sig c = some r := by
  have hcl : ∀ x, x ∈ pareaConceptsList (finalAssign H sig) r ↔
      conceptToRoot H sig x = some r := by
    intro x
    rw [mem_pareaConceptsList, conceptToRoot]
  rw [PArea.get_conceptsF, Hierarchy.nodesFinset, List.mem_toFinset]
  constructor
  · intro hmem
    rw [Hierarchy.nodesList, List.mem_dedup] at hmem
    rcases List.mem_cons.mp hmem with rfl | hmem
    · exact conceptToRoot_of_root H sig hwf hr
    · -- c is an endpoint of an internal edge
      obtain ⟨e, he, hc⟩ := Hierarchy.endpoint_mem_exists_edge hmem
      obtain ⟨h1, -, h3⟩ := mem_buildPArea_edges.mp he
      rcases hc with rfl | rfl
      · exact (hcl _).mp h1
      · exact (hcl _).mp h3
  · intro hass
    rw [Hierarchy.nodesList, List.mem_dedup]
    by_cases hcr : c = r
    · subst hcr
      exact List.mem_cons_self _ _
    · obtain ⟨p, hp, hpl⟩ := conceptToRoot_parent_witness H sig hass hcr
      refine List.mem_cons_of_mem _ ?_
      have hedge : (c, p) ∈ (buildPArea H sig (finalAssign H sig) r).concept_hierarchy.edges :=
        mem_buildPArea_edges.mpr ⟨(hcl c).mpr hass, hp, (hcl p).mpr hpl⟩
      exact (Hierarchy.mem_foldr_endpoints hedge).1

theorem mem_createPAreas {H : Hierarchy ℕ} {sig : ℕ → Finset ℕ} {p : PArea} :
    p ∈ createPAreas H sig ↔
      ∃ r ∈ pareaRootsList H sig, p = buildPArea H sig (finalAssign H sig) r := by
  rw [createPAreas, List.mem_map]
  constructor
  · rintro ⟨r, hr, rfl⟩
    exact ⟨r, hr, rfl⟩
  · rintro ⟨r, hr, rfl⟩
    exact ⟨r, hr, rfl⟩

theorem mem_sigKeys {pareas : List PArea} {k : Finset ℕ} :
    k ∈ sigKeys pareas ↔ ∃ p ∈ pareas, p.relationships = k := by
  rw [sigKeys, List.mem_dedup, List.mem_map]

theorem mem_createAreasList {H : Hierarchy ℕ} {sig : ℕ → Finset ℕ} {a : Area} :
    a ∈ createAreasList H sig ↔
      ∃ k ∈ sigKeys (createPAreas H sig),
        a = { pareasL := (createPAreas H sig).filter fun p => decide (p.relationships = k)
              relationships := k } := by
  rw [createAreasList, List.mem_map]
  constructor
  · rintro ⟨k, hk, rfl⟩
    exact ⟨k, hk, rfl⟩
  · rintro ⟨k, hk, rfl⟩
    exact ⟨k, hk, rfl⟩

/-! ## Concrete test hierarchies -/

/-- Scenario A's diamond (spec section 8): `root=0 → a=1 → leaf=3`,
`root=0 → b=2 → leaf=3`. -/
def dH : Hierarchy ℕ :=
  { root := 0, edges := [(1, 0), (2, 0), (3, 1), (3, 2)], topo := [0, 1, 2, 3] }

/-- Scenario A's signatures: `sig root = {}`, `sig a = sig b = {10}`,
`sig leaf = {10, 11}`. -/
def dSig : ℕ → Finset ℕ := fun c =>
  if c = 0 then ∅ else if c = 3 then {10, 11} else {10}

/-- A hierarchy separating the claimed from the implemented candidate-parent
rule: `r=0 {}` with children `a=1 {1}` and `b=2 {2}`, and `c=3 {1,2}` a child
of `a` only. -/
def h3 : Hierarchy ℕ :=
  { root := 0, edges := [(1, 0), (2, 0), (3, 1)], topo := [0, 1, 2, 3] }

def sig3 : ℕ → Finset ℕ := fun c =>
  if c = 0 then ∅ else if c = 1 then {1} else if c = 2 then {2} else {1, 2}

/-- A chain whose bottom region has no candidate parent: `0 {}`, `1 {1}`
child of `0`, `2 {2}` child of `1`. -/
def h4 : Hierarchy ℕ :=
  { root := 0, edges := [(1, 0), (2, 1)], topo := [0, 1, 2] }

def sig4 : ℕ → Finset ℕ := fun c =>
  if c = 0 then ∅ else if c = 1 then {1} else {2}

/-! ## C1, C2 -/

/-- Shared partition lemma: every node lies in exactly one constructed
partial area. -/
theorem parea_exists_unique (H : Hierarchy ℕ) (sig : ℕ → Finset ℕ)
    (hwf : H.WF) {n : ℕ} (hn : n ∈ H.nodesList) :
    ∃! p, p ∈ createPAreas H sig ∧ n ∈ p.get_conceptsF := by
  obtain ⟨v, hv⟩ := Option.isSome_iff_exists.mp (conceptToRoot_total H sig hwf n hn)
  have hvroot : v ∈ pareaRootsList H sig := (conceptToRoot_values H sig hv).1
  refine ⟨buildPArea H sig (finalAssign H sig) v,
    ⟨mem_createPAreas.mpr ⟨v, hvroot, rfl⟩,
      (mem_buildPArea_concepts H sig hwf hvroot).mpr hv⟩, ?_⟩
  rintro p ⟨hpmem, hpn⟩
  obtain ⟨r, hr, rfl⟩ := mem_createPAreas.mp hpmem
  have hcr := (mem_buildPArea_concepts H sig hwf hr).mp hpn
  rw [hv] at hcr
  rw [Option.some_inj.mp hcr]

/-- Shared partition lemma: every node lies in exactly one constructed
Area. -/
theorem area_exists_unique (H : Hierarchy ℕ) (sig : ℕ → Finset ℕ)
    (hwf : H.WF) {n : ℕ} (hn : n ∈ H.nodesList) :
    ∃! a, a ∈ createAreasList H sig ∧ n ∈ a.get_concepts := by
  obtain ⟨pv, ⟨hpv_mem, hpv_n⟩, hpuniq⟩ := parea_exists_unique H sig hwf hn
  have hk : pv.relationships ∈ sigKeys (createPAreas H sig) :=
    mem_sigKeys.mpr ⟨pv, hpv_mem, rfl⟩
  refine ⟨Area.mk ((createPAreas H sig).filter
        (fun p => decide (p.relationships = pv.relationships))) pv.relationships,
    ⟨mem_createAreasList.mpr ⟨pv.relationships, hk, rfl⟩, ?_⟩, ?_⟩
  · refine Area.mem_get_concepts.mpr ⟨pv, ?_, hpv_n⟩
    rw [List.mem_filter, decide_eq_true_eq]
    exact ⟨hpv_mem, rfl⟩
  · rintro a ⟨ha_mem, ha_n⟩
    obtain ⟨k, hkmem, rfl⟩ := mem_createAreasList.mp ha_mem
    obtain ⟨q, hq, hqn⟩ := Area.mem_get_concepts.mp ha_n
    rw [List.mem_filter, decide_eq_true_eq] at hq
    have hq_eq : q = pv := hpuniq q ⟨hq.1, hqn⟩
    have hkk : k = pv.relationships := by
      rw [← hq.2, hq_eq]
    rw [hkk]

/-- C1 (partition completeness): after `create_area_taxonomy` on a
well-formed Hierarchy (the signature function being total over the node set
by construction of the embedding), every node of the Hierarchy belongs to
exactly one partial area and exactly one Area: the sweep's `concept_to_root`
map sends each node to at most one region root (it is a map), and is total —
a node no root's claim succeeds on is itself a partial-area root. -/
theorem claim1_partition_completeness (H : Hierarchy ℕ) (sig : ℕ → Finset ℕ)
    (hwf : H.WF) :
    ∀ n ∈ H.nodesList,
      (∃! p, p ∈ createPAreas H sig ∧ n ∈ p.get_conceptsF) ∧
      (∃! a, a ∈ createAreasList H sig ∧ n ∈ a.get_concepts) :=
  fun n hn => ⟨parea_exists_unique H sig hwf hn, area_exists_unique H sig hwf hn⟩

/-- C1 witness at the Scenario A diamond and node 3. -/
theorem claim1_witness :
    dH.WF ∧ 3 ∈ dH.nodesList ∧
      ((∃! p, p ∈ createPAreas dH dSig ∧ 3 ∈ p.get_conceptsF) ∧
       (∃! a, a ∈ createAreasList dH dSig ∧ 3 ∈ a.get_concepts)) :=
  ⟨by decide, by decide, claim1_partition_completeness dH dSig (by decide) 3 (by decide)⟩

/-- C2 (signature homogeneity): every concept of a partial area built by
`create_area_taxonomy` has the cached signature of the partial area's root,
which is the partial area's signature. -/
theorem claim2_signature_homogeneity (H : Hierarchy ℕ) (sig : ℕ → Finset ℕ)
    (hwf : H.WF) :
    ∀ p ∈ createPAreas H sig, ∀ n ∈ p.get_conceptsF, sig n = p.relationships := by
  intro p hp n hn
  obtain ⟨r, hr, rfl⟩ := mem_createPAreas.mp hp
  have h := (mem_buildPArea_concepts H sig hwf hr).mp hn
  rw [buildPArea_relationships]
  exact (conceptToRoot_values H sig h).2.1

/-- C2 witness at the Scenario A diamond. -/
theorem claim2_witness :
    dH.WF ∧ ∀ p ∈ createPAreas dH dSig, ∀ n ∈ p.get_conceptsF,
      dSig n = p.relationships :=
  ⟨by decide, claim2_signature_homogeneity dH dSig (by decide)⟩

/-! ## Characterizing the PArea-hierarchy construction -/

theorem find?_eq_some_of_unique {α : Type} {l : List α} {p : α → Bool} {b : α}
    (hb : b ∈ l) (hpb : p b = true) (huniq : ∀ x ∈ l, p x = true → x = b) :
    l.find? p = some b := by
  induction l with
  | nil => cases hb
  | cons a t ih =>
    rcases List.mem_cons.mp hb with rfl | hb
    · rw [List.find?_cons, hpb]
    · by_cases hpa : p a = true
      · have : a = b := huniq a (List.mem_cons_self _ _) hpa
        subst this
        rw [List.find?_cons, hpa]
      · rw [List.find?_cons]
        have : p a = false := Bool.eq_false_iff.mpr hpa
        rw [this]
        exact ih hb fun x hx hpx => huniq x (List.mem_cons_of_mem _ hx) hpx

/-- Under the Hierarchy contract, the `next(root for root, p in
root_to_parea.items() if parent_concept in p.get_concepts())` lookup finds
exactly the unique partial area containing the concept. -/
theorem findPArea_eq (H : Hierarchy ℕ) (sig : ℕ → Finset ℕ) (hwf : H.WF)
    {c : ℕ} (hc : c ∈ H.nodesList) {q : PArea} :
    ((createPAreas H sig).find? fun p => decide (c ∈ p.get_conceptsF)) = some q ↔
      q ∈ createPAreas H sig ∧ c ∈ q.get_conceptsF := by
  obtain ⟨p0, ⟨hp0m, hp0c⟩, hp0u⟩ := parea_exists_unique H sig hwf hc
  constructor
  · intro h
    have h1 := List.find?_some h
    have h2 := List.mem_of_find?_eq_some h
    rw [decide_eq_true_eq] at h1
    exact ⟨h2, h1⟩
  · rintro ⟨hq1, hq2⟩
    have hq0 : q = p0 := hp0u q ⟨hq1, hq2⟩
    subst hq0
    refine find?_eq_some_of_unique hp0m (by simp [hp0c]) ?_
    intro x hx hpx
    rw [decide_eq_true_eq] at hpx
    exact hp0u x ⟨hx, hpx⟩

theorem collectParentPAreas_isSome {pareas : List PArea} {l : List ℕ}
    (h : ∀ pc ∈ l, ((pareas.find? fun p => decide (pc ∈ p.get_conceptsF)).isSome)) :
    (collectParentPAreas pareas l).isSome := by
  induction l with
  | nil => rw [collectParentPAreas]; rfl
  | cons pc rest ih =>
    rw [collectParentPAreas]
    obtain ⟨q, hq⟩ := Option.isSome_iff_exists.mp (h pc (List.mem_cons_self _ _))
    rw [hq, Option.some_bind]
    obtain ⟨qs, hqs⟩ := Option.isSome_iff_exists.mp
      (ih fun x hx => h x (List.mem_cons_of_mem _ hx))
    rw [hqs, Option.map_some']
    rfl

theorem mem_collectParentPAreas {pareas : List PArea} {l : List ℕ}
    {qs : List PArea} (h : collectParentPAreas pareas l = some qs) {q : PArea} :
    q ∈ qs ↔ ∃ pc ∈ l,
      (pareas.find? fun p => decide (pc ∈ p.get_conceptsF)) = some q := by
  induction l generalizing qs with
  | nil =>
    rw [collectParentPAreas] at h
    obtain rfl : ([] : List PArea) = qs := Option.some_inj.mp h
    simp
  | cons pc rest ih =>
    rw [collectParentPAreas] at h
    cases hfind : pareas.find? fun p => decide (pc ∈ p.get_conceptsF) with
    | none => rw [hfind, Option.none_bind] at h; cases h
    | some q0 =>
      rw [hfind, Option.some_bind] at h
      cases hrest : collectParentPAreas pareas rest with
      | none => rw [hrest, Option.map_none'] at h; cases h
      | some qs0 =>
        rw [hrest, Option.map_some'] at h
        obtain rfl : q0 :: qs0 = qs := Option.some_inj.mp h
        rw [List.mem_cons, ih hrest]
        constructor
        · rintro (rfl | ⟨pc', hpc', hf⟩)
          · exact ⟨pc, List.mem_cons_self _ _, hfind⟩
          · exact ⟨pc', List.mem_cons_of_mem _ hpc', hf⟩
        · rintro ⟨pc', hpc', hf⟩
          rcases List.mem_cons.mp hpc' with rfl | hpc'
          · rw [hfind] at hf
            exact Or.inl (Option.some_inj.mp hf).symm
          · exact Or.inr ⟨pc', hpc', hf⟩

theorem candidateParents_isSome (H : Hierarchy ℕ) (sig : ℕ → Finset ℕ)
    (hwf : H.WF) (A : PArea) :
    (candidateParents H sig (createPAreas H sig) A).isSome := by
  rw [candidateParents]
  have h : (collectParentPAreas (createPAreas H sig) (H.parents A.get_root)).isSome := by
    refine collectParentPAreas_isSome ?_
    intro pc hpc
    have hpcn : pc ∈ H.nodesList := Hierarchy.mem_nodesList_of_parent hpc
    obtain ⟨p0, ⟨hp0m, hp0c⟩, -⟩ := parea_exists_unique H sig hwf hpcn
    rw [(findPArea_eq H sig hwf hpcn).mpr ⟨hp0m, hp0c⟩]
    rfl
  obtain ⟨qs, hqs⟩ := Option.isSome_iff_exists.mp h
  rw [hqs, Option.map_some']
  rfl

/-- The candidate parents of a partial area are exactly the partial areas
that contain some hierarchy-parent of its root and whose root signature is a
strict subset of its own root signature. -/
theorem mem_candidateParents (H : Hierarchy ℕ) (sig : ℕ → Finset ℕ)
    (hwf : H.WF) {A : PArea} {cs : List PArea}
    (h : candidateParents H sig (createPAreas H sig) A = some cs) {B : PArea} :
    B ∈ cs ↔
      (∃ pc ∈ H.parents A.get_root, B ∈ createPAreas H sig ∧ pc ∈ B.get_conceptsF) ∧
      sig B.get_root ⊆ sig A.get_root ∧ sig B.get_root ≠ sig A.get_root := by
  rw [candidateParents] at h
  cases hcol : collectParentPAreas (createPAreas H sig) (H.parents A.get_root) with
  | none => rw [hcol, Option.map_none'] at h; cases h
  | some qs =>
    rw [hcol, Option.map_some'] at h
    obtain rfl := Option.some_inj.mp h
    rw [List.mem_dedup, List.mem_filter, decide_eq_true_eq,
      mem_collectParentPAreas hcol]
    constructor
    · rintro ⟨⟨pc, hpc, hf⟩, hsub⟩
      have hpcn : pc ∈ H.nodesList := Hierarchy.mem_nodesList_of_parent hpc
      obtain ⟨hB1, hB2⟩ := (findPArea_eq H sig hwf hpcn).mp hf
      exact ⟨⟨pc, hpc, hB1, hB2⟩, hsub⟩
    · rintro ⟨⟨pc, hpc, hB1, hB2⟩, hsub⟩
      have hpcn : pc ∈ H.nodesList := Hierarchy.mem_nodesList_of_parent hpc
      exact ⟨⟨pc, hpc, (findPArea_eq H sig hwf hpcn).mpr ⟨hB1, hB2⟩⟩, hsub⟩

theorem buildPAreaEdges_isSome {H : Hierarchy ℕ} {sig : ℕ → Finset ℕ}
    {ps : List PArea} :
    ∀ {l : List PArea}, (∀ A ∈ l, (candidateParents H sig ps A).isSome) →
      (buildPAreaEdges H sig ps l).isSome := by
  intro l
  induction l with
  | nil =>
    intro h
    rw [buildPAreaEdges]
    rfl
  | cons A rest ih =>
    intro h
    rw [buildPAreaEdges]
    obtain ⟨cs, hcs⟩ := Option.isSome_iff_exists.mp (h A (List.mem_cons_self _ _))
    rw [hcs, Option.some_bind]
    obtain ⟨es, hes⟩ := Option.isSome_iff_exists.mp
      (ih fun x hx => h x (List.mem_cons_of_mem _ hx))
    rw [hes, Option.map_some']
    rfl

theorem mem_buildPAreaEdges {H : Hierarchy ℕ} {sig : ℕ → Finset ℕ}
    {ps : List PArea} :
    ∀ {l : List PArea} {es : List (PArea × PArea)},
      buildPAreaEdges H sig ps l = some es →
      ∀ {A B : PArea}, ((A, B) ∈ es ↔ A ∈ l ∧
        ∃ cs, candidateParents H sig ps A = some cs ∧
          B ∈ immediateParents sig cs) := by
  intro l
  induction l with
  | nil =>
    intro es h A B
    rw [buildPAreaEdges] at h
    obtain rfl := Option.some_inj.mp h
    simp
  | cons A0 rest ih =>
    intro es h A B
    rw [buildPAreaEdges] at h
    cases hcs : candidateParents H sig ps A0 with
    | none => rw [hcs, Option.none_bind] at h; cases h
    | some cs0 =>
      rw [hcs, Option.some_bind] at h
      cases hrest : buildPAreaEdges H sig ps rest with
      | none => rw [hrest, Option.map_none'] at h; cases h
      | some es0 =>
        rw [hrest, Option.map_some'] at h
        obtain rfl := Option.some_inj.mp h
        rw [List.mem_append, ih hrest]
        constructor
        · rintro (hA | ⟨hA, cs, hc, hB⟩)
          · obtain ⟨P, hP, heq⟩ := List.mem_map.mp hA
            have hA0 : A0 = A := congrArg Prod.fst heq
            have hBP : P = B := congrArg Prod.snd heq
            subst hA0
            subst hBP
            exact ⟨List.mem_cons_self _ _, cs0, hcs, hP⟩
          · exact ⟨List.mem_cons_of_mem _ hA, cs, hc, hB⟩
        · rintro ⟨hA, cs, hc, hB⟩
          rcases List.mem_cons.mp hA with rfl | hA
          · rw [hcs] at hc
            obtain rfl := Option.some_inj.mp hc
            exact Or.inl (List.mem_map.mpr ⟨B, hB, rfl⟩)
          · exact Or.inr ⟨hA, cs, hc, hB⟩

theorem root_mem_pareaRootsList (H : Hierarchy ℕ) (sig : ℕ → Finset ℕ)
    (hwf : H.WF) : H.root ∈ pareaRootsList H sig :=
  mem_pareaRootsList.mpr ⟨H.root_mem_nodesList, Or.inl hwf.2.2.2.2⟩

/-- The `root_to_parea[hierarchy.get_root()]` lookup of
`create_parea_taxonomy` returns the partial area rooted at the global
root. -/
theorem rootParea_find (H : Hierarchy ℕ) (sig : ℕ → Finset ℕ) (hwf : H.WF) :
    ((createPAreas H sig).find? fun p => decide (p.get_root = H.root)) =
      some (buildPArea H sig (finalAssign H sig) H.root) := by
  refine find?_eq_some_of_unique
    (mem_createPAreas.mpr ⟨H.root, root_mem_pareaRootsList H sig hwf, rfl⟩)
    (by simp [buildPArea_get_root]) ?_
  intro x hx hpx
  rw [decide_eq_true_eq] at hpx
  obtain ⟨r, hr, rfl⟩ := mem_createPAreas.mp hx
  rw [buildPArea_get_root] at hpx
  rw [hpx]

/-- What `create_area_taxonomy` returns on a well-formed Hierarchy: the
grouped areas, with the root area being an area that contains the global
root. -/
theorem createAreaTaxonomy_spec (H : Hierarchy ℕ) (sig : ℕ → Finset ℕ)
    (hwf : H.WF) :
    ∃ t, createAreaTaxonomy H sig = some t ∧
      t.areasList = createAreasList H sig ∧
      t.root_area ∈ createAreasList H sig ∧
      H.root ∈ t.root_area.get_concepts := by
  obtain ⟨a0, ⟨ha0m, ha0c⟩, -⟩ :=
    area_exists_unique H sig hwf H.root_mem_nodesList
  have hfind : ((createAreasList H sig).find? fun a =>
      decide (H.root ∈ a.get_concepts)).isSome := by
    rw [List.find?_isSome]
    exact ⟨a0, ha0m, by simp [ha0c]⟩
  obtain ⟨ra, hra⟩ := Option.isSome_iff_exists.mp hfind
  refine ⟨{ areasList := createAreasList H sig, root_area := ra }, ?_, rfl,
    List.mem_of_find?_eq_some hra, ?_⟩
  · rw [createAreaTaxonomy, hra, Option.map_some']
  · have := List.find?_some hra
    rwa [decide_eq_true_eq] at this

/-- What `create_parea_taxonomy` returns on a well-formed Hierarchy: the
area taxonomy, the root partial area, and one edge from each non-root
partial area to each of its immediate candidate parents. -/
theorem createPAreaTaxonomy_spec (H : Hierarchy ℕ) (sig : ℕ → Finset ℕ)
    (hwf : H.WF) :
    ∃ T, createPAreaTaxonomy H sig = some T ∧
      T.parea_hierarchy.root = buildPArea H sig (finalAssign H sig) H.root ∧
      T.area_taxonomy.areasList = createAreasList H sig ∧
      H.root ∈ T.area_taxonomy.root_area.get_concepts ∧
      (∀ A B : PArea, (A, B) ∈ T.parea_hierarchy.edges ↔
        (A ∈ createPAreas H sig ∧ A ≠ buildPArea H sig (finalAssign H sig) H.root ∧
          ∃ cs, candidateParents H sig (createPAreas H sig) A = some cs ∧
            B ∈ immediateParents sig cs)) := by
  obtain ⟨t, ht, htareas, htrm, htrc⟩ := createAreaTaxonomy_spec H sig hwf
  have hedges : (buildPAreaEdges H sig (createPAreas H sig)
      ((createPAreas H sig).filter fun p =>
        decide (p ≠ buildPArea H sig (finalAssign H sig) H.root))).isSome :=
    buildPAreaEdges_isSome fun A _ => candidateParents_isSome H sig hwf A
  obtain ⟨es, hes⟩ := Option.isSome_iff_exists.mp hedges
  refine ⟨{ area_taxonomy := t
            parea_hierarchy := { root := buildPArea H sig (finalAssign H sig) H.root
                                 edges := es
                                 topo := [] } }, ?_, rfl, htareas, htrc, ?_⟩
  · rw [createPAreaTaxonomy, ht, Option.some_bind, rootParea_find H sig hwf,
      Option.some_bind, hes, Option.map_some']
  · intro A B
    rw [mem_buildPAreaEdges hes]
    rw [List.mem_filter, decide_eq_true_eq]
    tauto

/-! ## C6, C9 -/

/-- C6 (root containment): on a well-formed Hierarchy there is exactly one
Area whose concept set contains the global root; `create_area_taxonomy`
succeeds and designates it as the root Area (so the `InvariantViolation` the
spec posits for its absence is unreachable), and `create_parea_taxonomy`'s
root partial area likewise contains the global root. -/
theorem claim6_root_containment (H : Hierarchy ℕ) (sig : ℕ → Finset ℕ)
    (hwf : H.WF) :
    (∃! a, a ∈ createAreasList H sig ∧ H.root ∈ a.get_concepts) ∧
    (∃ t, createAreaTaxonomy H sig = some t ∧ t.areasList = createAreasList H sig ∧
      t.root_area ∈ createAreasList H sig ∧ H.root ∈ t.root_area.get_concepts) ∧
    (∃ T, createPAreaTaxonomy H sig = some T ∧
      H.root ∈ T.get_root_parea.get_conceptsF) := by
  refine ⟨area_exists_unique H sig hwf H.root_mem_nodesList,
    createAreaTaxonomy_spec H sig hwf, ?_⟩
  obtain ⟨T, hT, hroot, -, -, -⟩ := createPAreaTaxonomy_spec H sig hwf
  refine ⟨T, hT, ?_⟩
  rw [PAreaTaxonomy.get_root_parea, hroot]
  rw [mem_buildPArea_concepts H sig hwf (root_mem_pareaRootsList H sig hwf)]
  exact conceptToRoot_of_root H sig hwf (root_mem_pareaRootsList H sig hwf)

/-- C6 witness at the Scenario A diamond. -/
theorem claim6_witness :
    dH.WF ∧
    ((∃! a, a ∈ createAreasList dH dSig ∧ dH.root ∈ a.get_concepts) ∧
     (∃ t, createAreaTaxonomy dH dSig = some t ∧ t.areasList = createAreasList dH dSig ∧
       t.root_area ∈ createAreasList dH dSig ∧ dH.root ∈ t.root_area.get_concepts) ∧
     (∃ T, createPAreaTaxonomy dH dSig = some T ∧
       dH.root ∈ T.get_root_parea.get_conceptsF)) :=
  ⟨by decide, claim6_root_containment dH dSig (by decide)⟩

/-- C9 (idempotence/determinism): the construction is a pure function of the
Hierarchy's observable structure (root, edge list, topological ordering) and
the pointwise behaviour of the signature function — two runs over equal
observations produce the identical `concept_to_root` assignment, the same
region signatures, and the same grouped areas, regardless of object
identities. -/
theorem claim9_determinism (H1 H2 : Hierarchy ℕ) (sig1 sig2 : ℕ → Finset ℕ)
    (hroot : H1.root = H2.root) (hedges : H1.edges = H2.edges)
    (htopo : H1.topo = H2.topo) (hsig : ∀ c, sig1 c = sig2 c) :
    finalAssign H1 sig1 = finalAssign H2 sig2 ∧
    (createPAreas H1 sig1).map PArea.relationships =
      (createPAreas H2 sig2).map PArea.relationships ∧
    createAreasList H1 sig1 = createAreasList H2 sig2 := by
  have hH : H1 = H2 := by
    cases H1
    cases H2
    simp_all
  have hs : sig1 = sig2 := funext hsig
  subst hH
  subst hs
  exact ⟨rfl, rfl, rfl⟩

/-- C9 witness: two runs over the Scenario A diamond. -/
theorem claim9_witness :
    finalAssign dH dSig = finalAssign dH dSig ∧
    (createPAreas dH dSig).map PArea.relationships =
      (createPAreas dH dSig).map PArea.relationships ∧
    createAreasList dH dSig = createAreasList dH dSig :=
  claim9_determinism dH dH dSig dSig rfl rfl rfl fun _ => rfl

theorem mem_immediateParents {sig : ℕ → Finset ℕ} {cands : List PArea} {B : PArea} :
    B ∈ immediateParents sig cands ↔ B ∈ cands ∧
      ¬ ∃ q ∈ cands, q ≠ B ∧ sig B.get_root ⊆ sig q.get_root ∧
        sig B.get_root ≠ sig q.get_root := by
  rw [immediateParents, List.mem_filter, decide_eq_true_eq]

/-- The edge relation of a successfully built PArea taxonomy. -/
theorem createPAreaTaxonomy_edges (H : Hierarchy ℕ) (sig : ℕ → Finset ℕ)
    (hwf : H.WF) {T : PAreaTaxonomy} (hT : createPAreaTaxonomy H sig = some T) :
    T.parea_hierarchy.root = buildPArea H sig (finalAssign H sig) H.root ∧
    ∀ A B : PArea, (A, B) ∈ T.parea_hierarchy.edges ↔
      (A ∈ createPAreas H sig ∧ A ≠ buildPArea H sig (finalAssign H sig) H.root ∧
        ∃ cs, candidateParents H sig (createPAreas H sig) A = some cs ∧
          B ∈ immediateParents sig cs) := by
  obtain ⟨T', hT', hroot, -, -, hchar⟩ := createPAreaTaxonomy_spec H sig hwf
  rw [hT] at hT'
  obtain rfl := Option.some_inj.mp hT'
  exact ⟨hroot, hchar⟩

/-- C5 (transitive reduction of the region hierarchy): in the PArea
hierarchy built by `create_parea_taxonomy`, no direct edge `A→C` coexists
with a two-step path `A→B→C`: an edge `B→C` forces `sig C ⊊ sig B`, making
`C` dominated by the candidate `B` of `A` and hence not immediate for `A`. -/
theorem claim5_transitive_reduction (H : Hierarchy ℕ) (sig : ℕ → Finset ℕ)
    (hwf : H.WF) {T : PAreaTaxonomy} (hT : createPAreaTaxonomy H sig = some T) :
    ∀ A B C : PArea, (A, B) ∈ T.parea_hierarchy.edges →
      (B, C) ∈ T.parea_hierarchy.edges → (A, C) ∈ T.parea_hierarchy.edges → False := by
  obtain ⟨-, hchar⟩ := createPAreaTaxonomy_edges H sig hwf hT
  intro A B C hAB hBC hAC
  obtain ⟨hA1, hA2, csA, hcsA, hBim⟩ := (hchar A B).mp hAB
  obtain ⟨-, -, csB, hcsB, hCim⟩ := (hchar B C).mp hBC
  obtain ⟨-, -, csA', hcsA', hCim'⟩ := (hchar A C).mp hAC
  rw [hcsA] at hcsA'
  obtain rfl := Option.some_inj.mp hcsA'
  have hBmem : B ∈ csA := (mem_immediateParents.mp hBim).1
  obtain ⟨hCmem, hCnodom⟩ := mem_immediateParents.mp hCim'
  have hCB : sig C.get_root ⊆ sig B.get_root ∧
      sig C.get_root ≠ sig B.get_root := by
    have := (mem_candidateParents H sig hwf hcsB).mp
      (mem_immediateParents.mp hCim).1
    exact this.2
  refine hCnodom ⟨B, hBmem, ?_, hCB.1, hCB.2⟩
  intro hBCeq
  rw [hBCeq] at hCB
  exact hCB.2 rfl

/-! ## Concrete evaluations (the sweep is evaluated once per example by
rewriting with its equations; everything downstream is then computed by the
kernel) -/

def pA0 : PArea := PArea.mk (Hierarchy.mk 0 [] []) ∅
def pA1 : PArea := PArea.mk (Hierarchy.mk 1 [] []) {10}
def pA2 : PArea := PArea.mk (Hierarchy.mk 2 [] []) {10}
def pA3 : PArea := PArea.mk (Hierarchy.mk 3 [] []) {10, 11}

/-- The area taxonomy of the Scenario A diamond. -/
def dAT : AreaTaxonomy :=
  AreaTaxonomy.mk
    [Area.mk [pA0] ∅, Area.mk [pA3] {10, 11}, Area.mk [pA1, pA2] {10}]
    (Area.mk [pA0] ∅)

/-- The PArea taxonomy of the Scenario A diamond. -/
def dT : PAreaTaxonomy :=
  PAreaTaxonomy.mk dAT
    (Hierarchy.mk pA0 [(pA1, pA0), (pA3, pA1), (pA3, pA2), (pA2, pA0)] [])

theorem dH_finalAssign : finalAssign dH dSig = [(3, 3), (2, 2), (1, 1), (0, 0)] := by
  simp +decide [finalAssign, assignSweep, outerStep, sweepLoop, pushStack, pushAssign,
    kidsOf, kidCond, pareaRootsList, isPAreaRoot, Hierarchy.parents, Hierarchy.children,
    Hierarchy.nodesList, dH, dSig]

theorem dH_createPAreas : createPAreas dH dSig = [pA0, pA1, pA3, pA2] := by
  simp only [createPAreas, dH_finalAssign]
  decide

theorem dH_createAreaTaxonomy : createAreaTaxonomy dH dSig = some dAT := by
  simp only [createAreaTaxonomy, createAreasList, sigKeys, createPAreas, dH_finalAssign]
  decide

theorem dH_createPAreaTaxonomy : createPAreaTaxonomy dH dSig = some dT := by
  simp only [createPAreaTaxonomy, createAreaTaxonomy, createAreasList, sigKeys,
    createPAreas, dH_finalAssign]
  decide

def pB0 : PArea := PArea.mk (Hierarchy.mk 0 [] []) ∅
def pB1 : PArea := PArea.mk (Hierarchy.mk 1 [] []) {1}
def pB2 : PArea := PArea.mk (Hierarchy.mk 2 [] []) {2}
def pB3 : PArea := PArea.mk (Hierarchy.mk 3 [] []) {1, 2}

/-- The PArea taxonomy of the candidate-rule example `h3`. -/
def T3 : PAreaTaxonomy :=
  PAreaTaxonomy.mk
    (AreaTaxonomy.mk
      [Area.mk [pB2] {2}, Area.mk [pB0] ∅, Area.mk [pB3] {1, 2}, Area.mk [pB1] {1}]
      (Area.mk [pB0] ∅))
    (Hierarchy.mk pB0 [(pB2, pB0), (pB3, pB1), (pB1, pB0)] [])

theorem h3_finalAssign : finalAssign h3 sig3 = [(3, 3), (2, 2), (1, 1), (0, 0)] := by
  simp +decide [finalAssign, assignSweep, outerStep, sweepLoop, pushStack, pushAssign,
    kidsOf, kidCond, pareaRootsList, isPAreaRoot, Hierarchy.parents, Hierarchy.children,
    Hierarchy.nodesList, h3, sig3]

theorem h3_createPAreas : createPAreas h3 sig3 = [pB2, pB0, pB3, pB1] := by
  simp only [createPAreas, h3_finalAssign]
  decide

theorem h3_createPAreaTaxonomy : createPAreaTaxonomy h3 sig3 = some T3 := by
  simp only [createPAreaTaxonomy, createAreaTaxonomy, createAreasList, sigKeys,
    createPAreas, h3_finalAssign]
  decide

def pC0 : PArea := PArea.mk (Hierarchy.mk 0 [] []) ∅
def pC1 : PArea := PArea.mk (Hierarchy.mk 1 [] []) {1}
def pC2 : PArea := PArea.mk (Hierarchy.mk 2 [] []) {2}

/-- The PArea taxonomy of the chain `h4`. -/
def T4 : PAreaTaxonomy :=
  PAreaTaxonomy.mk
    (AreaTaxonomy.mk
      [Area.mk [pC0] ∅, Area.mk [pC2] {2}, Area.mk [pC1] {1}]
      (Area.mk [pC0] ∅))
    (Hierarchy.mk pC0 [(pC1, pC0)] [])

theorem h4_finalAssign : finalAssign h4 sig4 = [(2, 2), (1, 1), (0, 0)] := by
  simp +decide [finalAssign, assignSweep, outerStep, sweepLoop, pushStack, pushAssign,
    kidsOf, kidCond, pareaRootsList, isPAreaRoot, Hierarchy.parents, Hierarchy.children,
    Hierarchy.nodesList, h4, sig4]

theorem h4_createPAreas : createPAreas h4 sig4 = [pC0, pC2, pC1] := by
  simp only [createPAreas, h4_finalAssign]
  decide

theorem h4_createPAreaTaxonomy : createPAreaTaxonomy h4 sig4 = some T4 := by
  simp only [createPAreaTaxonomy, createAreaTaxonomy, createAreasList, sigKeys,
    createPAreas, h4_finalAssign]
  decide

/-- C5 witness: at the Scenario A diamond, the edges `leaf→a` and `a→root`
exist and no redundant edge `leaf→root` was added. -/
theorem claim5_witness :
    (pA3, pA1) ∈ dT.parea_hierarchy.edges ∧
    (pA1, pA0) ∈ dT.parea_hierarchy.edges ∧
    (pA3, pA0) ∉ dT.parea_hierarchy.edges :=
  ⟨by decide, by decide, fun h =>
    claim5_transitive_reduction dH dSig (by decide) dH_createPAreaTaxonomy
      pA3 pA1 pA0 (by decide) (by decide) h⟩

/-! ## C3, C4 -/

/-- Modelled from the spec: the claimed candidate-parent rule of spec section
4.5 — `P` is a candidate parent of `R` iff `signature(P)` is a strict subset
of `signature(R)`, quantified over **all** regions. -/
def specCandidateParents (sig : ℕ → Finset ℕ) (pareas : List PArea) (A : PArea) :
    List PArea :=
  pareas.filter fun P => decide (sig P.get_root ⊆ sig A.get_root ∧
    sig P.get_root ≠ sig A.get_root)

/-- Modelled from the spec: the claimed immediate parents — the claimed
candidates not dominated by a more specific claimed candidate. -/
def specImmediateParents (sig : ℕ → Finset ℕ) (pareas : List PArea) (A : PArea) :
    List PArea :=
  immediateParents sig (specCandidateParents sig pareas A)

/-- What the code actually uses as candidate set: the partial areas
containing some hierarchy-parent of `A`'s root, with root signature a strict
subset of `A`'s. -/
def hierCandidates (H : Hierarchy ℕ) (sig : ℕ → Finset ℕ) (pareas : List PArea)
    (A : PArea) : List PArea :=
  pareas.filter fun P => decide ((∃ pc ∈ H.parents A.get_root, pc ∈ P.get_conceptsF) ∧
    sig P.get_root ⊆ sig A.get_root ∧ sig P.get_root ≠ sig A.get_root)

/-- C3 counterexample: in `h3`, the region of `b=2` (signature `{2}` ⊊
`{1,2}`) is an immediate candidate of the region of `c=3` under the claim's
all-regions rule, yet `create_parea_taxonomy` adds no such edge, because no
hierarchy-parent of `c` lies in `b`'s region. -/
theorem claim3_counterexample :
    createPAreaTaxonomy h3 sig3 = some T3 ∧
    pB3 ∈ createPAreas h3 sig3 ∧
    pB3 ≠ T3.parea_hierarchy.root ∧
    pB2 ∈ specImmediateParents sig3 (createPAreas h3 sig3) pB3 ∧
    (pB3, pB2) ∉ T3.parea_hierarchy.edges := by
  refine ⟨h3_createPAreaTaxonomy, ?_, by decide, ?_, by decide⟩
  · rw [h3_createPAreas]
    decide
  · rw [h3_createPAreas]
    decide

theorem immediateParents_congr {sig : ℕ → Finset ℕ} {cands cands' : List PArea}
    (h : ∀ x, x ∈ cands ↔ x ∈ cands') (B : PArea) :
    B ∈ immediateParents sig cands ↔ B ∈ immediateParents sig cands' := by
  rw [mem_immediateParents, mem_immediateParents, h]
  constructor
  · rintro ⟨hB, hdom⟩
    refine ⟨hB, ?_⟩
    rintro ⟨q, hq, hqB, hsub, hne⟩
    exact hdom ⟨q, (h q).mpr hq, hqB, hsub, hne⟩
  · rintro ⟨hB, hdom⟩
    refine ⟨hB, ?_⟩
    rintro ⟨q, hq, hqB, hsub, hne⟩
    exact hdom ⟨q, (h q).mp hq, hqB, hsub, hne⟩

theorem candidateParents_eq_hierCandidates (H : Hierarchy ℕ) (sig : ℕ → Finset ℕ)
    (hwf : H.WF) {A : PArea} {cs : List PArea}
    (h : candidateParents H sig (createPAreas H sig) A = some cs) :
    ∀ x, x ∈ cs ↔ x ∈ hierCandidates H sig (createPAreas H sig) A := by
  intro x
  rw [mem_candidateParents H sig hwf h, hierCandidates, List.mem_filter,
    decide_eq_true_eq]
  constructor
  · rintro ⟨⟨pc, hpc, hx, hxc⟩, hsub⟩
    exact ⟨hx, ⟨pc, hpc, hxc⟩, hsub⟩
  · rintro ⟨hx, ⟨pc, hpc, hxc⟩, hsub⟩
    exact ⟨⟨pc, hpc, hx, hxc⟩, hsub⟩

/-- C3 amended: for every non-root region `R` of the built PArea hierarchy,
`R`'s parents are exactly the immediate elements of the candidate set, where
a region `P` is a candidate iff it contains some hierarchy-parent of `R`'s
root concept and `signature(P)` is a strict subset of `signature(R)` — the
quantification runs over the regions containing a hierarchy-parent of `R`'s
root, not over all regions. -/
theorem claim3_amended_edge_characterization (H : Hierarchy ℕ)
    (sig : ℕ → Finset ℕ) (hwf : H.WF) {T : PAreaTaxonomy}
    (hT : createPAreaTaxonomy H sig = some T) :
    ∀ A ∈ createPAreas H sig, A ≠ T.parea_hierarchy.root →
      ∀ B, ((A, B) ∈ T.parea_hierarchy.edges ↔
        B ∈ immediateParents sig (hierCandidates H sig (createPAreas H sig) A)) := by
  obtain ⟨hroot, hchar⟩ := createPAreaTaxonomy_edges H sig hwf hT
  intro A hA hAne B
  obtain ⟨cs, hcs⟩ := Option.isSome_iff_exists.mp (candidateParents_isSome H sig hwf A)
  rw [hchar A B]
  rw [← immediateParents_congr (candidateParents_eq_hierCandidates H sig hwf hcs) B]
  constructor
  · rintro ⟨-, -, cs', hcs', hB⟩
    rw [hcs] at hcs'
    obtain rfl := Option.some_inj.mp hcs'
    exact hB
  · intro hB
    rw [hroot] at hAne
    exact ⟨hA, hAne, cs, hcs, hB⟩

/-- C3 witness: the amended characterization at `h3`'s region of `c=3`. -/
theorem claim3_witness :
    h3.WF ∧ pB3 ∈ createPAreas h3 sig3 ∧ pB3 ≠ T3.parea_hierarchy.root ∧
      ∀ B, ((pB3, B) ∈ T3.parea_hierarchy.edges ↔
        B ∈ immediateParents sig3 (hierCandidates h3 sig3 (createPAreas h3 sig3) pB3)) :=
  ⟨by decide, by rw [h3_createPAreas]; decide, by decide,
    claim3_amended_edge_characterization h3 sig3 (by decide) h3_createPAreaTaxonomy
      pB3 (by rw [h3_createPAreas]; decide) (by decide)⟩

/-- C4 counterexample: in the chain `h4`, the region of node `2` is not the
root region yet gets no parent edge — its only hierarchy-parent lies in a
region with incomparable signature `{1} ⊄ {2}`. -/
theorem claim4_counterexample :
    createPAreaTaxonomy h4 sig4 = some T4 ∧
    pC2 ∈ createPAreas h4 sig4 ∧
    pC2 ≠ T4.parea_hierarchy.root ∧
    ∀ e ∈ T4.parea_hierarchy.edges, e.1 ≠ pC2 := by
  refine ⟨h4_createPAreaTaxonomy, ?_, by decide, by decide⟩
  rw [h4_createPAreas]
  decide

/-- A finite nonempty list of PAreas has a signature-maximal element. -/
theorem exists_maximal_parea (sig : ℕ → Finset ℕ) :
    ∀ (l : List PArea), l ≠ [] → ∃ p ∈ l, ∀ q ∈ l,
      ¬ (sig p.get_root ⊆ sig q.get_root ∧ sig p.get_root ≠ sig q.get_root) := by
  intro l
  induction l with
  | nil => intro h; exact absurd rfl h
  | cons a t ih =>
    intro _
    by_cases ht : t = []
    · subst ht
      refine ⟨a, List.mem_cons_self _ _, ?_⟩
      intro q hq
      rcases List.mem_cons.mp hq with rfl | hq
      · rintro ⟨-, hne⟩
        exact hne rfl
      · cases hq
    · obtain ⟨p, hp, hmax⟩ := ih ht
      by_cases hdom : sig p.get_root ⊆ sig a.get_root ∧ sig p.get_root ≠ sig a.get_root
      · refine ⟨a, List.mem_cons_self _ _, ?_⟩
        intro q hq
        rcases List.mem_cons.mp hq with rfl | hq
        · rintro ⟨-, hne⟩
          exact hne rfl
        · rintro ⟨hsub, hne⟩
          have hpq : sig p.get_root ⊆ sig q.get_root := subset_trans hdom.1 hsub
          have hpeq : sig p.get_root = sig q.get_root := by
            by_contra hne2
            exact hmax q hq ⟨hpq, hne2⟩
          have : sig a.get_root = sig q.get_root :=
            subset_antisymm hsub (by rw [← hpeq]; exact hdom.1)
          exact hne this
      · refine ⟨p, List.mem_cons_of_mem _ hp, ?_⟩
        intro q hq
        rcases List.mem_cons.mp hq with rfl | hq
        · exact hdom
        · exact hmax q hq

theorem exists_immediate {sig : ℕ → Finset ℕ} {cands : List PArea}
    (h : cands ≠ []) : ∃ B, B ∈ immediateParents sig cands := by
  obtain ⟨p, hp, hmax⟩ := exists_maximal_parea sig cands h
  refine ⟨p, mem_immediateParents.mpr ⟨hp, ?_⟩⟩
  rintro ⟨q, hq, -, hsub, hne⟩
  exact hmax q hq ⟨hsub, hne⟩

/-- C4 amended: a non-root region receives at least one parent edge provided
its candidate set — the regions containing a hierarchy-parent of its root
with strictly smaller signature — is nonempty; a region whose candidate set
is empty (as in `h4`) is left parentless. -/
theorem claim4_amended_parent_existence (H : Hierarchy ℕ) (sig : ℕ → Finset ℕ)
    (hwf : H.WF) {T : PAreaTaxonomy} (hT : createPAreaTaxonomy H sig = some T) :
    ∀ A ∈ createPAreas H sig, A ≠ T.parea_hierarchy.root →
      hierCandidates H sig (createPAreas H sig) A ≠ [] →
      ∃ B, (A, B) ∈ T.parea_hierarchy.edges := by
  obtain ⟨hroot, hchar⟩ := createPAreaTaxonomy_edges H sig hwf hT
  intro A hA hAne hcne
  obtain ⟨cs, hcs⟩ := Option.isSome_iff_exists.mp (candidateParents_isSome H sig hwf A)
  have hiff := candidateParents_eq_hierCandidates H sig hwf hcs
  have hcsne : cs ≠ [] := by
    obtain ⟨x, hx⟩ := List.exists_mem_of_ne_nil _ hcne
    intro hnil
    rw [hnil] at hiff
    exact (List.not_mem_nil x) ((hiff x).mpr hx)
  obtain ⟨B, hB⟩ := @exists_immediate sig cs hcsne
  refine ⟨B, (hchar A B).mpr ⟨hA, ?_, cs, hcs, hB⟩⟩
  rw [← hroot]
  exact hAne

/-- C4 witness: the leaf region of the Scenario A diamond has a nonempty
candidate set and indeed gets a parent. -/
theorem claim4_witness :
    dH.WF ∧ pA3 ∈ createPAreas dH dSig ∧ pA3 ≠ dT.parea_hierarchy.root ∧
      hierCandidates dH dSig (createPAreas dH dSig) pA3 ≠ [] ∧
      ∃ B, (pA3, B) ∈ dT.parea_hierarchy.edges :=
  ⟨by decide, by rw [dH_createPAreas]; decide, by decide,
    by rw [dH_createPAreas]; decide,
    claim4_amended_parent_existence dH dSig (by decide) dH_createPAreaTaxonomy
      pA3 (by rw [dH_createPAreas]; decide) (by decide)
      (by rw [dH_createPAreas]; decide)⟩

/-! ## C8, C7 -/

/-- C8 counterexample: the Scenario A diamond yields 4 regions, not the 3
the claim states (the claim itself enumerates four: `{root}`, `{a}`, `{b}`,
and `{leaf}`). -/
theorem claim8_counterexample :
    (createPAreas dH dSig).length = 4 ∧ (createPAreas dH dSig).length ≠ 3 := by
  constructor <;> rw [dH_createPAreas] <;> decide

/-- C8 amended: the diamond yields exactly four regions — `{root}`, `{a}`,
`{b}`, `{leaf}` (with signatures `∅`, `{10}`, `{10,11}`, `{10}`) — and in the
region hierarchy the leaf region's parents are exactly the `a`-region and the
`b`-region. -/
theorem claim8_amended_scenarioA :
    (createPAreas dH dSig).map PArea.get_conceptsF = [{0}, {1}, {3}, {2}] ∧
    (createPAreas dH dSig).map PArea.relationships = [∅, {10}, {10, 11}, {10}] ∧
    createPAreaTaxonomy dH dSig = some dT ∧
    (pA3, pA1) ∈ dT.parea_hierarchy.edges ∧
    (pA3, pA2) ∈ dT.parea_hierarchy.edges ∧
    (∀ e ∈ dT.parea_hierarchy.edges, e.1 = pA3 → e.2 = pA1 ∨ e.2 = pA2) := by
  refine ⟨?_, ?_, dH_createPAreaTaxonomy, by decide, by decide, by decide⟩
  · rw [dH_createPAreas]
    decide
  · rw [dH_createPAreas]
    decide

theorem lookup_eq_some_mem_gen {β : Type} {l : List (ℕ × β)} {k : ℕ} {v : β}
    (h : l.lookup k = some v) : (k, v) ∈ l := by
  induction l with
  | nil => simp [List.lookup] at h
  | cons a t ih =>
    obtain ⟨a1, a2⟩ := a
    by_cases hk : k = a1
    · subst hk
      simp [List.lookup] at h
      simp [h]
    · have hbeq : (k == a1) = false := by simp [hk]
      rw [List.lookup, hbeq] at h
      exact List.mem_cons_of_mem _ (ih h)

/-- C7 amended: `AreaTaxonomy.get_concept_area` **returns** `None` (it is a
plain `dict.get`) for a concept lying in no Area, and
`PAreaTaxonomy.get_area_for` raises `StopIteration` (a bare `next` over an
exhausted generator) for a PArea lying in no Area — neither signals the
`NotFoundError` the spec names, which exists nowhere in the source. -/
theorem claim7_amended_facade_errors :
    (∀ (t : AreaTaxonomy) (c : ℕ), (∀ a ∈ t.areasList, c ∉ a.get_concepts) →
      t.get_concept_area c = PyOutcome.ok none) ∧
    (∀ (T : PAreaTaxonomy) (q : PArea),
      (∀ a ∈ T.area_taxonomy.areasList, q ∉ a.get_pareas) →
      T.get_area_for q = PyOutcome.stopIteration) := by
  constructor
  · intro t c hc
    rw [AreaTaxonomy.get_concept_area]
    cases hl : t.conceptAreasWrites.reverse.lookup c with
    | none => rfl
    | some a =>
      exfalso
      have hmem := lookup_eq_some_mem_gen hl
      rw [List.mem_reverse] at hmem
      rw [AreaTaxonomy.conceptAreasWrites, List.mem_flatMap] at hmem
      obtain ⟨a0, ha0, hpair⟩ := hmem
      obtain ⟨c0, hc0, heq⟩ := List.mem_map.mp hpair
      have hcc : c0 = c := congrArg Prod.fst heq
      subst hcc
      exact hc a0 ha0 (List.mem_toFinset.mpr hc0)
  · intro T q hq
    rw [PAreaTaxonomy.get_area_for]
    have hfind : T.area_taxonomy.areasList.find?
        (fun a => decide (q ∈ a.get_pareas)) = none := by
      rw [List.find?_eq_none]
      intro a ha
      simp only [decide_eq_true_eq]
      exact hq a ha
    rw [hfind]

/-- C7 counterexample: at the diamond's taxonomies, a query for the unknown
concept `99` returns the value `None` (no exception), and a query for a
foreign PArea raises `StopIteration` — not `NotFoundError`. -/
theorem claim7_counterexample :
    createAreaTaxonomy dH dSig = some dAT ∧
    dAT.get_concept_area 99 = PyOutcome.ok none ∧
    PyOutcome.ok (none : Option Area) ≠ PyOutcome.notFoundError ∧
    createPAreaTaxonomy dH dSig = some dT ∧
    dT.get_area_for (PArea.mk (Hierarchy.mk 99 [] []) ∅) = PyOutcome.stopIteration ∧
    (PyOutcome.stopIteration : PyOutcome Area) ≠ PyOutcome.notFoundError :=
  ⟨dH_createAreaTaxonomy, by decide, by decide, dH_createPAreaTaxonomy,
    by decide, by decide⟩

/-- C7 witness for the amended behaviour, at the diamond taxonomies. -/
theorem claim7_witness :
    ((∀ a ∈ dAT.areasList, 99 ∉ a.get_concepts) ∧
      dAT.get_concept_area 99 = PyOutcome.ok none) ∧
    ((∀ a ∈ dT.area_taxonomy.areasList,
        (PArea.mk (Hierarchy.mk 99 [] []) ∅) ∉ a.get_pareas) ∧
      dT.get_area_for (PArea.mk (Hierarchy.mk 99 [] []) ∅) =
        PyOutcome.stopIteration) :=
  ⟨⟨by decide, claim7_amended_facade_errors.1 dAT 99 (by decide)⟩,
   ⟨by decide, claim7_amended_facade_errors.2 dT _ (by decide)⟩⟩

/-! ## C10: the depth visitor -/

theorem foldl_max_ge_init (d : ℤ) (ds : List ℤ) : d ≤ ds.foldl max d := by
  induction ds generalizing d with
  | nil => exact le_refl d
  | cons x xs ih =>
    rw [List.foldl_cons]
    exact le_trans (le_max_left d x) (ih (max d x))

theorem foldl_max_ge_mem {ds : List ℤ} {x : ℤ} (hx : x ∈ ds) (d : ℤ) :
    x ≤ ds.foldl max d := by
  induction ds generalizing d with
  | nil => cases hx
  | cons y ys ih =>
    rw [List.foldl_cons]
    rcases List.mem_cons.mp hx with rfl | hx
    · exact le_trans (le_max_right d x) (foldl_max_ge_init _ _)
    · exact ih hx _

theorem foldl_max_mem (ds : List ℤ) (d : ℤ) :
    ds.foldl max d = d ∨ ds.foldl max d ∈ ds := by
  induction ds generalizing d with
  | nil => exact Or.inl rfl
  | cons x xs ih =>
    rw [List.foldl_cons]
    rcases ih (max d x) with h | h
    · rw [h]
      rcases le_total d x with hle | hle
      · rw [max_eq_right hle]
        exact Or.inr (List.mem_cons_self _ _)
      · rw [max_eq_left hle]
        exact Or.inl rfl
    · exact Or.inr (List.mem_cons_of_mem _ h)

theorem maxParentDepth_nil {H : Hierarchy ℕ} {st : DepthVisitor} {n : ℕ}
    (h : H.parents n = []) : maxParentDepth H st n = -1 := by
  rw [maxParentDepth, h]
  rfl

theorem maxParentDepth_spec {H : Hierarchy ℕ} {st : DepthVisitor} {n : ℕ}
    (hne : H.parents n ≠ []) :
    (∀ p ∈ H.parents n, st.depth p ≤ maxParentDepth H st n) ∧
    (∃ p ∈ H.parents n, st.depth p = maxParentDepth H st n) := by
  rw [maxParentDepth]
  cases hmap : (H.parents n).map st.depth with
  | nil =>
    exact absurd (List.map_eq_nil_iff.mp hmap) hne
  | cons d0 ds =>
    constructor
    · intro p hp
      have hmem : st.depth p ∈ (H.parents n).map st.depth :=
        List.mem_map.mpr ⟨p, hp, rfl⟩
      rw [hmap] at hmem
      rcases List.mem_cons.mp hmem with heq | hmem
      · rw [heq]
        exact foldl_max_ge_init _ _
      · exact foldl_max_ge_mem hmem _
    · have : ds.foldl max d0 ∈ (H.parents n).map st.depth := by
        rw [hmap]
        rcases foldl_max_mem ds d0 with h | h
        · rw [h]
          exact List.mem_cons_self _ _
        · exact List.mem_cons_of_mem _ h
      obtain ⟨p, hp, heq⟩ := List.mem_map.mp this
      exact ⟨p, hp, heq⟩

/-- The recorded depth is correct for a node: it is one less than the length
of a longest upward parent-path ending at a parentless node. -/
def DepthCorrect (H : Hierarchy ℕ) (d : ℤ) (n : ℕ) : Prop :=
  (∃ l, UpPath H (n :: l) ∧ ((n :: l).length : ℤ) = d + 1) ∧
  (∀ l, UpPath H (n :: l) → ((n :: l).length : ℤ) ≤ d + 1)

theorem visit_depth_other {H : Hierarchy ℕ} {st : DepthVisitor} {n m : ℕ}
    (h : m ≠ n) : (DepthVisitor.visit H st n).depth m = st.depth m := by
  rw [DepthVisitor.visit]
  exact Function.update_noteq h _ _

theorem visit_depth_self (H : Hierarchy ℕ) (st : DepthVisitor) (n : ℕ) :
    (DepthVisitor.visit H st n).depth n = maxParentDepth H st n + 1 := by
  rw [DepthVisitor.visit]
  exact Function.update_same _ _ _

theorem mem_prefix_of_indexOf_lt {l1 l2 : List ℕ} {p : ℕ} (hp : p ∈ l1 ++ l2)
    (h : (l1 ++ l2).indexOf p < l1.length) : p ∈ l1 := by
  by_contra hnot
  rw [List.indexOf_append_of_not_mem hnot] at h
  omega

theorem fold_visit_depth_preserved (H : Hierarchy ℕ) :
    ∀ (l : List ℕ) (st : DepthVisitor) (m : ℕ), m ∉ l →
      (l.foldl (DepthVisitor.visit H) st).depth m = st.depth m := by
  intro l
  induction l with
  | nil => intro st m _; rfl
  | cons n rest ih =>
    intro st m hm
    rw [List.foldl_cons]
    rw [ih _ m fun h => hm (List.mem_cons_of_mem _ h)]
    exact visit_depth_other fun h => hm (h ▸ List.mem_cons_self _ _)

/-- The invariant induction of `visit` along a topological order: after
processing a prefix, every processed node's recorded depth is the longest
upward-path length minus one. -/
theorem fold_visit_correct (H : Hierarchy ℕ) (order : List ℕ)
    (hnodup : order.Nodup)
    (hpar : ∀ n ∈ order, ∀ p ∈ H.parents n,
      p ∈ order ∧ order.indexOf p < order.indexOf n) :
    ∀ (l done : List ℕ), order = done ++ l →
      (∀ m ∈ done, DepthCorrect H
        ((done.foldl (DepthVisitor.visit H) DepthVisitor.init).depth m) m) →
      ∀ m ∈ order, DepthCorrect H
        ((order.foldl (DepthVisitor.visit H) DepthVisitor.init).depth m) m := by
  intro l
  induction l with
  | nil =>
    intro done heq hinv m hm
    rw [heq, List.append_nil] at hm ⊢
    exact hinv m hm
  | cons n rest ih =>
    intro done heq hinv
    have hmemn : n ∈ order := by
      rw [heq]
      exact List.mem_append.mpr (Or.inr (List.mem_cons_self _ _))
    have hnodup' : (done ++ n :: rest).Nodup := heq ▸ hnodup
    have hndone : n ∉ done := by
      obtain ⟨-, -, hdisj⟩ := List.nodup_append.mp hnodup'
      exact fun h => hdisj h (List.mem_cons_self _ _)
    -- the state after the prefix
    have hparents_done : ∀ p ∈ H.parents n, p ∈ done := by
      intro p hp
      obtain ⟨hpord, hplt⟩ := hpar n hmemn p hp
      rw [heq] at hpord hplt
      refine mem_prefix_of_indexOf_lt hpord (lt_of_lt_of_le hplt ?_)
      rw [List.indexOf_append_of_not_mem hndone, List.indexOf_cons_self]
      omega
    -- depth correctness for n at the state right after visiting n
    have hstep : DepthCorrect H
        (((done ++ [n]).foldl (DepthVisitor.visit H) DepthVisitor.init).depth n) n := by
      rw [List.foldl_append, List.foldl_cons, List.foldl_nil]
      rw [visit_depth_self]
      by_cases hpe : H.parents n = []
      · rw [maxParentDepth_nil hpe]
        constructor
        · refine ⟨[], UpPath.single n hpe, ?_⟩
          simp
        · intro l hl
          cases hl with
          | single => simp
          | cons _ p l' hp _ =>
            rw [hpe] at hp
            cases hp
      · obtain ⟨hub, hp0ex⟩ :=
          @maxParentDepth_spec H (done.foldl (DepthVisitor.visit H) DepthVisitor.init) n hpe
        obtain ⟨p0, hp0, hp0eq⟩ := hp0ex
        constructor
        · obtain ⟨lp, hlp, hlen⟩ := (hinv p0 (hparents_done p0 hp0)).1
          refine ⟨p0 :: lp, UpPath.cons n p0 lp hp0 hlp, ?_⟩
          have : ((p0 :: lp).length : ℤ) =
              (done.foldl (DepthVisitor.visit H) DepthVisitor.init).depth p0 + 1 := hlen
          simp only [List.length_cons] at this ⊢
          push_cast at this ⊢
          rw [← hp0eq]
          omega
        · intro l hl
          cases hl with
          | single _ hpar0 => exact absurd hpar0 hpe
          | cons _ p l' hp hup =>
            have hbound := (hinv p (hparents_done p hp)).2 l' hup
            have hle := hub p hp
            simp only [List.length_cons] at hbound ⊢
            push_cast at hbound ⊢
            omega
    -- push the invariant through the visit of n
    refine ih (done ++ [n]) (by rw [heq, List.append_assoc]; rfl) ?_
    intro m hm
    rcases List.mem_append.mp hm with hm | hm
    · have hmn : m ≠ n := fun h => hndone (h ▸ hm)
      rw [List.foldl_append, List.foldl_cons, List.foldl_nil,
        visit_depth_other hmn]
      exact (hinv m hm).imp (fun h => h) fun h => h
    · rw [List.mem_singleton.mp hm]
      exact hstep

/-- C10 (implicit): each `HierarchyDepthVisitor.visit(node)` records
`depth[node]` as one plus the maximum recorded depth among the node's
parents, with the empty-parent case falling back to `-1` before the
increment (so parentless nodes are recorded at depth 0); consequently, when
the nodes are visited in a topological order (each node once, parents
strictly before children), `get_all_depths` maps every node to the length of
the longest parent-path from it to a parentless node. -/
theorem claim10_depth_visitor (H : Hierarchy ℕ) (order : List ℕ)
    (hnodup : order.Nodup)
    (hpar : ∀ n ∈ order, ∀ p ∈ H.parents n,
      p ∈ order ∧ order.indexOf p < order.indexOf n) :
    (∀ (st : DepthVisitor) (node : ℕ),
      (DepthVisitor.visit H st node).depth node = maxParentDepth H st node + 1 ∧
      (H.parents node = [] → (DepthVisitor.visit H st node).depth node = 0)) ∧
    (∀ m ∈ order,
      (∃ l, UpPath H (m :: l) ∧ ((m :: l).length : ℤ) =
        (DepthVisitor.visitAll H order).get_all_depths m + 1) ∧
      (∀ l, UpPath H (m :: l) → ((m :: l).length : ℤ) ≤
        (DepthVisitor.visitAll H order).get_all_depths m + 1)) := by
  constructor
  · intro st node
    refine ⟨visit_depth_self H st node, ?_⟩
    intro hpe
    rw [visit_depth_self, maxParentDepth_nil hpe]
    omega
  · intro m hm
    have := fold_visit_correct H order hnodup hpar order [] rfl
      (by intro x hx; cases hx) m hm
    exact this

/-- C10 witness at the Scenario A diamond with topological order
`[0,1,2,3]`. -/
theorem claim10_witness :
    ([0, 1, 2, 3] : List ℕ).Nodup ∧
    (∀ n ∈ ([0, 1, 2, 3] : List ℕ), ∀ p ∈ dH.parents n,
      p ∈ ([0, 1, 2, 3] : List ℕ) ∧
        ([0, 1, 2, 3] : List ℕ).indexOf p < ([0, 1, 2, 3] : List ℕ).indexOf n) ∧
    ((∀ (st : DepthVisitor) (node : ℕ),
      (DepthVisitor.visit dH st node).depth node = maxParentDepth dH st node + 1 ∧
      (dH.parents node = [] → (DepthVisitor.visit dH st node).depth node = 0)) ∧
    (∀ m ∈ ([0, 1, 2, 3] : List ℕ),
      (∃ l, UpPath dH (m :: l) ∧ ((m :: l).length : ℤ) =
        (DepthVisitor.visitAll dH [0, 1, 2, 3]).get_all_depths m + 1) ∧
      (∀ l, UpPath dH (m :: l) → ((m :: l).length : ℤ) ≤
        (DepthVisitor.visitAll dH [0, 1, 2, 3]).get_all_depths m + 1))) :=
  ⟨by decide, by decide,
    claim10_depth_visitor dH [0, 1, 2, 3] (by decide) (by decide)⟩
